import Mathlib

/-!
# A chained hash table in C (`hashmap.c`, `hashmap.h`): embedding and properties

The C structures become Lean structures, a bucket chain (a null-terminated
singly linked list of `hashmap_node_t`) becomes a `List`, the bucket array
becomes a list of chains, and every operation is a function from the state
before the call to the state after it.  Undefined behaviour of the C program
(a modulus by zero, an index outside the bucket array, a dereferenced null
pointer, a signed overflow of `int size`) is an explicit `Fault`.  The outcome
of each `malloc`/`calloc` is an explicit Boolean input.
-/

namespace Hashmap

/-- Undefined behaviour of the C program, made explicit. -/
inductive Fault where
  /-- the right operand of `%` is zero -/
  | divByZero
  /-- `buckets[h]` with `h` outside the allocated array -/
  | outOfBounds
  /-- `it -> next` while `it` is the null pointer -/
  | nullDeref
  /-- `size++` or `size--` leaves the range of `int` -/
  | intOverflow
  deriving DecidableEq, Repr

/-- Values of `uint64_t` are the naturals below this bound. -/
def UINT64_MOD : Nat := 2 ^ 64

/-- Largest value of the C type `int` (32 bits). -/
def INT_MAX : Int := 2 ^ 31 - 1

/-- Smallest value of the C type `int` (32 bits). -/
def INT_MIN : Int := -(2 ^ 31)

/-- The struct `hashmap_pair_t` of `hashmap.h`: a key and a value. -/
structure hashmap_pair_t (K V : Type) where
  key : K
  val : V
  deriving DecidableEq, Repr

/-- The struct `hashmap_node_t` of `hashmap.h`.  The field `next` is the tail
of the list the node heads. -/
structure hashmap_node_t (K V : Type) where
  pair : hashmap_pair_t K V
  hash : Nat
  deriving DecidableEq, Repr

/-- The struct `hashmap_t` of `hashmap.h`.  `buckets` is the allocated array
(its real length is not the field `capacity`), `size` is a C `int`,
`capacity` a `uint64_t`; `hash` gives the `uint64_t` result of the user's
hash function as a natural number. -/
structure hashmap_t (K V : Type) where
  buckets : List (List (hashmap_node_t K V))
  size : Int
  capacity : Nat
  hash : K → Nat
  equal : K → K → Bool

variable {K V : Type}

/-- Line 12-31, `hashmap_init`.  `mapOk` and `bucketsOk` say whether the
`malloc` of the table and the `calloc` of the bucket array succeed. -/
def hashmap_init (init_capacity : Nat) (hash : K → Nat) (equal : K → K → Bool)
    (mapOk bucketsOk : Bool) : Option (hashmap_t K V) :=
  if !mapOk then none
  else if !bucketsOk then none
  else some
    { buckets := List.replicate init_capacity []
      size := 0
      capacity := init_capacity
      hash := hash
      equal := equal }

/-- Line 59-65, the loop of `hashmap_get`: the pair of the first node of the
chain whose key satisfies `equal(it -> pair -> key, key)`. -/
def get_walk (equal : K → K → Bool) (key : K) :
    List (hashmap_node_t K V) → Option (hashmap_pair_t K V)
  | [] => none
  | it :: next => if equal it.pair.key key then some it.pair else get_walk equal key next

/-- Line 50-68, `hashmap_get`.  A null `map` is `none`; the result `none` is
the null pointer. -/
def hashmap_get (map : Option (hashmap_t K V)) (key : K) :
    Except Fault (Option (hashmap_pair_t K V)) :=
  match map with
  | none => .ok none
  | some m =>
    if m.capacity = 0 then .error .divByZero
    else
      match m.buckets[m.hash key % m.capacity]? with
      | none => .error .outOfBounds
      | some it => .ok (get_walk m.equal key it)

/-- Floor of the binary logarithm by repeated halving, `f` halvings at most. -/
def log2_fuel : Nat → Nat → Nat
  | 0, _ => 0
  | f + 1, n => if n < 2 then 0 else log2_fuel f (n / 2) + 1

/-- Floor of the binary logarithm of a natural number below `2 ^ 129`. -/
def ilog2 (n : Nat) : Nat := log2_fuel 128 n

/-- The conversion `(double)capacity` of a `uint64_t` in IEEE 754 binary64:
the nearest number with a significand of 53 bits, a tie going to the even
significand.  The result is again a natural number. -/
def to_double (c : Nat) : Nat :=
  if ilog2 c ≤ 52 then c
  else
    let sh := ilog2 c - 52
    let m := c / 2 ^ sh
    let r := c % 2 ^ sh
    if 2 ^ sh < 2 * r ∨ (2 * r = 2 ^ sh ∧ m % 2 = 1) then (m + 1) * 2 ^ sh else m * 2 ^ sh

/-- The IEEE 754 binary64 quotient `s / b` of two positive doubles with
natural values, `s` below `2 ^ 53`: the result `(m, j)` stands for
`m / 2 ^ j`, where `j` scales the exact quotient into `[2 ^ 52, 2 ^ 53)` and
`m` is that scaled quotient rounded to the nearest integer, a tie going to the
even one. -/
def double_div (s b : Nat) : Nat × Nat :=
  let j0 := 52 + ilog2 b - ilog2 s
  let j := if s * 2 ^ j0 < 2 ^ 52 * b then j0 + 1 else j0
  let m := s * 2 ^ j / b
  let r := s * 2 ^ j % b
  if b < 2 * r ∨ (2 * r = b ∧ m % 2 = 1) then (m + 1, j) else (m, j)

/-- Line 76, the test `(double)map -> size / map -> capacity >= .75` in IEEE
754 binary64 arithmetic, for `size` an `int` and `capacity` a `uint64_t`.
`(double)size` is exact.  A quotient that is zero or negative fails the test;
a positive size over a zero capacity gives `+inf`, which passes it (`0 / 0` is
`NaN` and a negative size gives `-inf`, which fail it); otherwise the rounded
quotient `m / 2 ^ j` is compared with `3 / 4`. -/
def load_factor_reached (size : Int) (capacity : Nat) : Bool :=
  if size ≤ 0 then false
  else if capacity = 0 then true
  else
    let q := double_div size.toNat (to_double capacity)
    decide (3 * 2 ^ q.2 ≤ 4 * q.1)

/-- Line 148-156, the inner loop of `rehash`: every node of the chain is
pushed on the front of bucket `it -> hash % new_capacity` of `temp_buckets`. -/
def rehash_chain (new_capacity : Nat) :
    List (hashmap_node_t K V) → List (List (hashmap_node_t K V)) →
      Except Fault (List (List (hashmap_node_t K V)))
  | [], temp_buckets => .ok temp_buckets
  | it :: next, temp_buckets =>
    if new_capacity = 0 then .error .divByZero
    else
      match temp_buckets[it.hash % new_capacity]? with
      | none => .error .outOfBounds
      | some head =>
        rehash_chain new_capacity next
          (temp_buckets.set (it.hash % new_capacity) (it :: head))

/-- Line 146-157, the outer loop of `rehash` from index `i`, with `n`
iterations left (`n = capacity - i`). -/
def rehash_loop (buckets : List (List (hashmap_node_t K V))) (new_capacity : Nat) :
    Nat → Nat → List (List (hashmap_node_t K V)) →
      Except Fault (List (List (hashmap_node_t K V)))
  | 0, _, temp_buckets => .ok temp_buckets
  | n + 1, i, temp_buckets =>
    match buckets[i]? with
    | none => .error .outOfBounds
    | some it =>
      match rehash_chain new_capacity it temp_buckets with
      | .error f => .error f
      | .ok temp_buckets1 => rehash_loop buckets new_capacity n (i + 1) temp_buckets1

/-- Line 139-164, `rehash`.  `allocOk` says whether the `calloc` of the new
bucket array succeeds.  The result is the returned `bool` and the table after
the call. -/
def rehash (map : hashmap_t K V) (new_capacity : Nat) (allocOk : Bool) :
    Except Fault (Bool × hashmap_t K V) :=
  if !allocOk then .ok (false, map)
  else
    match rehash_loop map.buckets new_capacity map.capacity 0
        (List.replicate new_capacity []) with
    | .error f => .error f
    | .ok temp_buckets =>
      .ok (true, { map with buckets := temp_buckets, capacity := new_capacity })

/-- Line 82-97, the part of `hashmap_add` after the growth step.  `nodeOk`
says whether the `malloc` of the node succeeds. -/
def add_entry (m : hashmap_t K V) (pair : hashmap_pair_t K V) (nodeOk : Bool) :
    Except Fault (Bool × Option (hashmap_t K V)) :=
  if m.capacity = 0 then .error .divByZero
  else if !nodeOk then .ok (false, some m)
  else
    match m.buckets[m.hash pair.key % m.capacity]? with
    | none => .error .outOfBounds
    | some head =>
      if m.size = INT_MAX then .error .intOverflow
      else
        .ok (true, some
          { m with
            buckets := m.buckets.set (m.hash pair.key % m.capacity)
              ({ pair := pair, hash := m.hash pair.key % m.capacity } :: head)
            size := m.size + 1 })

/-- Line 75-80, the growth step of `hashmap_add`: the returned `bool` is
`false` when the `rehash` failed. -/
def add_grow (m : hashmap_t K V) (growOk : Bool) : Except Fault (Bool × hashmap_t K V) :=
  if load_factor_reached m.size m.capacity then
    rehash m (m.capacity * 2 % UINT64_MOD) growOk
  else .ok (true, m)

/-- Line 70-98, `hashmap_add`.  A null `map` or `pair` is `none`; `growOk`
and `nodeOk` say whether the `calloc` inside `rehash` and the `malloc` of the
node succeed.  The result is the returned `bool` and the table after the
call. -/
def hashmap_add (map : Option (hashmap_t K V)) (pair : Option (hashmap_pair_t K V))
    (growOk nodeOk : Bool) : Except Fault (Bool × Option (hashmap_t K V)) :=
  match map, pair with
  | some m, some p =>
    match add_grow m growOk with
    | .error f => .error f
    | .ok (false, m1) => .ok (false, some m1)
    | .ok (true, m1) => add_entry m1 p nodeOk
  | _, _ => .ok (false, map)

/-- Line 119-134, the walk of `hashmap_remove` behind the trailing pointer
`prev_node`: the pair of the first node whose key satisfies
`equal(key, it -> pair -> key)`, and the chain with that node unlinked. -/
def remove_walk (equal : K → K → Bool) (key : K) :
    List (hashmap_node_t K V) → Option (hashmap_pair_t K V × List (hashmap_node_t K V))
  | [] => none
  | it :: next =>
    if equal key it.pair.key then some (it.pair, next)
    else
      match remove_walk equal key next with
      | none => none
      | some (p, rest) => some (p, it :: rest)

/-- Line 100-137, `hashmap_remove`.  The result is the returned pointer
(`none` is null) and the table after the call.  With an empty target bucket
the statement `it = it -> next` of line 120 dereferences the null pointer. -/
def hashmap_remove (map : Option (hashmap_t K V)) (key : K) :
    Except Fault (Option (hashmap_pair_t K V) × Option (hashmap_t K V)) :=
  match map with
  | none => .ok (none, none)
  | some m =>
    if m.size = 0 then .ok (none, some m)
    else if m.capacity = 0 then .error .divByZero
    else
      match m.buckets[m.hash key % m.capacity]? with
      | none => .error .outOfBounds
      | some [] => .error .nullDeref
      | some (it :: next) =>
        if m.equal key it.pair.key then
          if m.size = INT_MIN then .error .intOverflow
          else
            .ok (some it.pair, some
              { m with
                buckets := m.buckets.set (m.hash key % m.capacity) next
                size := m.size - 1 })
        else
          match remove_walk m.equal key next with
          | none => .ok (none, some m)
          | some (p, rest) =>
            if m.size = INT_MIN then .error .intOverflow
            else
              .ok (some p, some
                { m with
                  buckets := m.buckets.set (m.hash key % m.capacity) (it :: rest)
                  size := m.size - 1 })

/-- Line 37-43, the inner loop of `hashmap_free`: `free_pair(it -> pair, state)`
for every node of the chain, front to back.  The callback acts on what `state`
points to. -/
def free_chain {σ : Type} (free_pair : hashmap_pair_t K V → σ → σ) :
    List (hashmap_node_t K V) → σ → σ
  | [], state => state
  | it :: next, state => free_chain free_pair next (free_pair it.pair state)

/-- Line 35-44, the outer loop of `hashmap_free` from index `i`, with `n`
iterations left. -/
def free_loop {σ : Type} (buckets : List (List (hashmap_node_t K V)))
    (free_pair : hashmap_pair_t K V → σ → σ) : Nat → Nat → σ → Except Fault σ
  | 0, _, state => .ok state
  | n + 1, i, state =>
    match buckets[i]? with
    | none => .error .outOfBounds
    | some it => free_loop buckets free_pair n (i + 1) (free_chain free_pair it state)

/-- Line 33-48, `hashmap_free`: the effect of all callback invocations on what
`state` points to. -/
def hashmap_free {σ : Type} (map : hashmap_t K V)
    (free_pair : hashmap_pair_t K V → σ → σ) (state : σ) : Except Fault σ :=
  free_loop map.buckets free_pair map.capacity 0 state

/-! ## Vocabulary of the properties -/

/-- All nodes stored in the table: bucket 0 first, every chain front to back. -/
def nodes (m : hashmap_t K V) : List (hashmap_node_t K V) := m.buckets.flatten

/-- All pairs stored in the table, in the order of `nodes`. -/
def pairs (m : hashmap_t K V) : List (hashmap_pair_t K V) :=
  (nodes m).map (fun it => it.pair)

/-- The chain of bucket `i`; the empty chain outside the array. -/
def chain (m : hashmap_t K V) (i : Nat) : List (hashmap_node_t K V) :=
  m.buckets.getD i []

/-- Line 90-95, the table after the new node of `pair` is linked in front of
its bucket and `size` is incremented. -/
def link_front (m : hashmap_t K V) (pair : hashmap_pair_t K V) : hashmap_t K V :=
  { m with
    buckets := m.buckets.set (m.hash pair.key % m.capacity)
      ({ pair := pair, hash := m.hash pair.key % m.capacity } ::
        chain m (m.hash pair.key % m.capacity))
    size := m.size + 1 }

/-- Line 111-114 and 125-128, the table after a node is unlinked: bucket `h`
holds `rest` and `size` is decremented. -/
def unlink (m : hashmap_t K V) (h : Nat) (rest : List (hashmap_node_t K V)) : hashmap_t K V :=
  { m with buckets := m.buckets.set h rest, size := m.size - 1 }

/-- A well-formed table: the capacity is a positive `uint64_t`, the bucket
array has `capacity` slots, and `size` is an `int` that counts the stored
nodes. -/
structure WF (m : hashmap_t K V) : Prop where
  capacity_pos : 1 ≤ m.capacity
  capacity_lt : m.capacity < UINT64_MOD
  length_buckets : m.buckets.length = m.capacity
  size_eq : m.size = ((nodes m).length : Int)
  size_le : m.size ≤ INT_MAX

/-- The equality function is an equivalence relation, and equal keys have
equal hashes. -/
structure EquivHash (hash : K → Nat) (equal : K → K → Bool) : Prop where
  refl : ∀ a, equal a a = true
  symm : ∀ a b, equal a b = true → equal b a = true
  trans : ∀ a b c, equal a b = true → equal b c = true → equal a c = true
  hash_eq : ∀ a b, equal a b = true → hash a = hash b

/-- Bucket placement: every node of bucket `i` has `hash % capacity = i`. -/
def Placed (m : hashmap_t K V) : Prop :=
  ∀ i it, it ∈ chain m i → it.hash % m.capacity = i

/-- The tables reachable from a successful `hashmap_init` with a capacity of
at least 1 by calls of `hashmap_add` (allocations succeeding or not) and
`hashmap_remove` that return. -/
inductive Reachable : hashmap_t K V → Prop
  | init (c : Nat) (hash : K → Nat) (equal : K → K → Bool) (m : hashmap_t K V) :
      1 ≤ c → c < UINT64_MOD → hashmap_init c hash equal true true = some m → Reachable m
  | add (m : hashmap_t K V) (p : hashmap_pair_t K V) (growOk nodeOk b : Bool)
      (m1 : hashmap_t K V) :
      Reachable m → hashmap_add (some m) (some p) growOk nodeOk = .ok (b, some m1) →
      Reachable m1
  | remove (m : hashmap_t K V) (k : K) (r : Option (hashmap_pair_t K V))
      (m1 : hashmap_t K V) :
      Reachable m → hashmap_remove (some m) k = .ok (r, some m1) → Reachable m1

/-- The tables built from a successful `hashmap_init` by calls of `hashmap_add`
and `hashmap_remove`, together with the pairs added and not removed since: a
successful add puts its pair in, a remove that returns a pair takes one copy
of it out. -/
inductive Built [DecidableEq K] [DecidableEq V] :
    hashmap_t K V → Multiset (hashmap_pair_t K V) → Prop
  | init (c : Nat) (hash : K → Nat) (equal : K → K → Bool) (m : hashmap_t K V) :
      1 ≤ c → c < UINT64_MOD → hashmap_init c hash equal true true = some m → Built m 0
  | add_ok (m : hashmap_t K V) (live : Multiset (hashmap_pair_t K V))
      (p : hashmap_pair_t K V) (growOk nodeOk : Bool) (m1 : hashmap_t K V) :
      Built m live → hashmap_add (some m) (some p) growOk nodeOk = .ok (true, some m1) →
      Built m1 (p ::ₘ live)
  | add_failed (m : hashmap_t K V) (live : Multiset (hashmap_pair_t K V))
      (p : hashmap_pair_t K V) (growOk nodeOk : Bool) (m1 : hashmap_t K V) :
      Built m live → hashmap_add (some m) (some p) growOk nodeOk = .ok (false, some m1) →
      Built m1 live
  | remove_found (m : hashmap_t K V) (live : Multiset (hashmap_pair_t K V)) (k : K)
      (p : hashmap_pair_t K V) (m1 : hashmap_t K V) :
      Built m live → hashmap_remove (some m) k = .ok (some p, some m1) →
      Built m1 (live.erase p)
  | remove_missing (m : hashmap_t K V) (live : Multiset (hashmap_pair_t K V)) (k : K)
      (m1 : hashmap_t K V) :
      Built m live → hashmap_remove (some m) k = .ok (none, some m1) → Built m1 live

/-- A run of `hashmap_add` over a list of pairs, every allocation succeeding;
it stops at the first call that returns `false`. -/
def add_all : Option (hashmap_t K V) → List (hashmap_pair_t K V) →
    Except Fault (Option (hashmap_t K V))
  | map, [] => .ok map
  | map, p :: ps =>
    match hashmap_add map (some p) true true with
    | .error f => .error f
    | .ok (true, map1) => add_all map1 ps
    | .ok (false, _) => .ok none

/-- The tables reachable from a successful `hashmap_init` of capacity `c` by
calls of `hashmap_add` alone (allocations succeeding or not), together with
the pairs of the calls that returned `true`, the most recent first. -/
inductive Added (c : Nat) (hash : K → Nat) (equal : K → K → Bool) :
    hashmap_t K V → List (hashmap_pair_t K V) → Prop
  | init (m : hashmap_t K V) :
      1 ≤ c → c < UINT64_MOD → hashmap_init c hash equal true true = some m →
      Added c hash equal m []
  | add_ok (m : hashmap_t K V) (ps : List (hashmap_pair_t K V)) (p : hashmap_pair_t K V)
      (growOk nodeOk : Bool) (m1 : hashmap_t K V) :
      Added c hash equal m ps →
      hashmap_add (some m) (some p) growOk nodeOk = .ok (true, some m1) →
      Added c hash equal m1 (p :: ps)
  | add_failed (m : hashmap_t K V) (ps : List (hashmap_pair_t K V)) (p : hashmap_pair_t K V)
      (growOk nodeOk : Bool) (m1 : hashmap_t K V) :
      Added c hash equal m ps →
      hashmap_add (some m) (some p) growOk nodeOk = .ok (false, some m1) →
      Added c hash equal m1 ps

/-- Following the words of the specification, "the most recently inserted
pair among all stored pairs whose key equals `key`": the first such pair of a
list of inserted pairs that has the most recent first. -/
def most_recent (equal : K → K → Bool) (key : K) (ps : List (hashmap_pair_t K V)) :
    Option (hashmap_pair_t K V) :=
  ps.find? (fun p => equal p.key key)

/-- Following the words of the specification, the bucket in which a rehash
"from scratch" to `new_capacity` puts a node: the user's hash of its key,
recomputed, modulo the new capacity.  The code (line 150) uses
`it -> hash % new_capacity` instead. -/
def recomputed_bucket (hash : K → Nat) (new_capacity : Nat) (it : hashmap_node_t K V) : Nat :=
  hash it.pair.key % new_capacity

/-! ## The tables of the worked examples: integer keys, string values -/

/-- The identity as a hash function on integer keys. -/
def int_hash (k : Nat) : Nat := k

/-- Integer equality as the equality function. -/
def int_equal (a b : Nat) : Bool := a == b

/-- The table `hashmap_init(1, identity, int_eq)`. -/
def table_empty : hashmap_t Nat String :=
  { buckets := [[]], size := 0, capacity := 1, hash := int_hash, equal := int_equal }

/-- The table after `(1, "a")` is added to `table_empty`. -/
def table_a : hashmap_t Nat String :=
  { buckets := [[{ pair := { key := 1, val := "a" }, hash := 0 }]]
    size := 1, capacity := 1, hash := int_hash, equal := int_equal }

/-- The table after `(2, "b")` is added to `table_a`: the capacity doubled. -/
def table_ab : hashmap_t Nat String :=
  { buckets := [[{ pair := { key := 2, val := "b" }, hash := 0 },
      { pair := { key := 1, val := "a" }, hash := 0 }], []]
    size := 2, capacity := 2, hash := int_hash, equal := int_equal }

/-- The table after `(3, "c")` is added to `table_ab`: the capacity doubled
again, and the rehash reversed the chain of bucket 0. -/
def table_abc : hashmap_t Nat String :=
  { buckets := [[{ pair := { key := 1, val := "a" }, hash := 0 },
      { pair := { key := 2, val := "b" }, hash := 0 }], [], [],
      [{ pair := { key := 3, val := "c" }, hash := 3 }]]
    size := 3, capacity := 4, hash := int_hash, equal := int_equal }

/-- The table `hashmap_init(2, identity, int_eq)`. -/
def table_two_empty : hashmap_t Nat String :=
  { buckets := [[], []], size := 0, capacity := 2, hash := int_hash, equal := int_equal }

/-- The table after `(2, "b")` is added to `table_two_empty`. -/
def table_two_b : hashmap_t Nat String :=
  { buckets := [[{ pair := { key := 2, val := "b" }, hash := 0 }], []]
    size := 1, capacity := 2, hash := int_hash, equal := int_equal }

/-- A table of capacity 4 whose bucket 0 holds the keys 4 and 0, added in the
order 0, 4. -/
def table_chain : hashmap_t Nat String :=
  { buckets := [[{ pair := { key := 4, val := "y" }, hash := 0 },
      { pair := { key := 0, val := "x" }, hash := 0 }], [], [], []]
    size := 2, capacity := 4, hash := int_hash, equal := int_equal }

/-- The table after `(1, "a")` of `table_a` is relinked by `rehash` to
capacity 2: the node stays in bucket 0. -/
def table_a_rehashed : hashmap_t Nat String :=
  { buckets := [[{ pair := { key := 1, val := "a" }, hash := 0 }], []]
    size := 1, capacity := 2, hash := int_hash, equal := int_equal }

/-- The table after `(0, "a")`, `(0, "b")` and `(3, "c")` are added, in that
order, to `table_empty`: the second rehash put the older pair of key 0 in
front of the newer one. -/
def table_dup : hashmap_t Nat String :=
  { buckets := [[{ pair := { key := 0, val := "a" }, hash := 0 },
      { pair := { key := 0, val := "b" }, hash := 0 }], [], [],
      [{ pair := { key := 3, val := "c" }, hash := 3 }]]
    size := 3, capacity := 4, hash := int_hash, equal := int_equal }

/-- The table after `(0, "a")` is added to `table_empty`. -/
def table_dup_a : hashmap_t Nat String :=
  { buckets := [[{ pair := { key := 0, val := "a" }, hash := 0 }]]
    size := 1, capacity := 1, hash := int_hash, equal := int_equal }

/-- The table after `(0, "b")` is added to `table_dup_a`, and also the table
after `(0, "a")` and `(0, "b")` are added to `table_two_empty`. -/
def table_dup_ab : hashmap_t Nat String :=
  { buckets := [[{ pair := { key := 0, val := "b" }, hash := 0 },
      { pair := { key := 0, val := "a" }, hash := 0 }], []]
    size := 2, capacity := 2, hash := int_hash, equal := int_equal }

/-- The table after `(0, "a")` is added to `table_two_empty`. -/
def table_two_a : hashmap_t Nat String :=
  { buckets := [[{ pair := { key := 0, val := "a" }, hash := 0 }], []]
    size := 1, capacity := 2, hash := int_hash, equal := int_equal }

/-! ## The growth test in floating point agrees with exact arithmetic -/

theorem log2_fuel_spec : ∀ (f n : Nat), 1 ≤ n → n < 2 ^ (f + 1) →
    2 ^ log2_fuel f n ≤ n ∧ n < 2 ^ (log2_fuel f n + 1) := by
  intro f
  induction f with
  | zero => intro n h1 h2; simp only [log2_fuel]; omega
  | succ f ih =>
    intro n h1 h2
    by_cases hn : n < 2
    · simp only [log2_fuel, hn, if_true]; omega
    · have h3 : n / 2 < 2 ^ (f + 1) := by
        rw [pow_succ] at h2; omega
      obtain ⟨a, b⟩ := ih (n / 2) (by omega) h3
      simp only [log2_fuel, hn, if_false]
      rw [pow_succ] at b
      constructor
      · rw [pow_succ]; omega
      · rw [pow_succ, pow_succ]; omega

theorem ilog2_spec (n : Nat) (h1 : 1 ≤ n) (h2 : n < 2 ^ 129) :
    2 ^ ilog2 n ≤ n ∧ n < 2 ^ (ilog2 n + 1) :=
  log2_fuel_spec 128 n h1 h2

theorem ilog2_lt_of_lt (n k : Nat) (h1 : 1 ≤ n) (h2 : n < 2 ^ 129) (h : n < 2 ^ k) :
    ilog2 n < k := by
  have := (ilog2_spec n h1 h2).1
  exact (Nat.pow_lt_pow_iff_right (by norm_num : 1 < 2)).mp (lt_of_le_of_lt this h)

theorem le_ilog2_of_le (n k : Nat) (h1 : 1 ≤ n) (h2 : n < 2 ^ 129) (h : 2 ^ k ≤ n) :
    k ≤ ilog2 n := by
  have := (ilog2_spec n h1 h2).2
  have := (Nat.pow_lt_pow_iff_right (by norm_num : 1 < 2)).mp (lt_of_le_of_lt h this)
  omega

theorem to_double_exact (c : Nat) (h : c < 2 ^ 53) : to_double c = c := by
  rcases Nat.eq_zero_or_pos c with h0 | h0
  · subst h0; rfl
  · have := ilog2_lt_of_lt c 53 h0 (lt_trans h (by norm_num)) h
    simp only [to_double]
    rw [if_pos (by omega)]

theorem to_double_large (c : Nat) (h : 2 ^ 53 ≤ c) (h2 : c < 2 ^ 64) :
    2 ^ 53 ≤ to_double c ∧ to_double c < 2 ^ 129 := by
  have hc1 : 1 ≤ c := le_trans (by norm_num) h
  have hc2 : c < 2 ^ 129 := lt_trans h2 (by norm_num)
  have hk := le_ilog2_of_le c 53 hc1 hc2 h
  have hk2 := ilog2_lt_of_lt c 64 hc1 hc2 h2
  obtain ⟨hlo, hhi⟩ := ilog2_spec c hc1 hc2
  obtain ⟨sh, hsh⟩ : ∃ sh, ilog2 c = 52 + sh := ⟨ilog2 c - 52, by omega⟩
  have hsh1 : 1 ≤ sh := by omega
  have hpow : 2 ^ ilog2 c = 2 ^ 52 * 2 ^ sh := by rw [hsh, pow_add]
  have hm : 2 ^ 52 ≤ c / 2 ^ sh := by
    rw [Nat.le_div_iff_mul_le (by positivity)]
    rw [← hpow]; exact hlo
  have hmle : c / 2 ^ sh * 2 ^ sh ≤ c := Nat.div_mul_le_self c (2 ^ sh)
  have h2sh : 2 ≤ 2 ^ sh := by
    calc 2 = 2 ^ 1 := by norm_num
      _ ≤ 2 ^ sh := Nat.pow_le_pow_right (by norm_num) hsh1
  have hshc : 2 ^ sh ≤ c := by
    calc 2 ^ sh ≤ 2 ^ 52 * 2 ^ sh := Nat.le_mul_of_pos_left _ (by positivity)
      _ ≤ c := by rw [← hpow]; exact hlo
  have hbase : 2 ^ 53 ≤ c / 2 ^ sh * 2 ^ sh := by
    calc 2 ^ 53 = 2 ^ 52 * 2 := by norm_num
      _ ≤ 2 ^ 52 * 2 ^ sh := Nat.mul_le_mul_left _ h2sh
      _ ≤ c / 2 ^ sh * 2 ^ sh := Nat.mul_le_mul_right _ hm
  simp only [to_double]
  rw [if_neg (by omega)]
  have hshe : ilog2 c - 52 = sh := by omega
  rw [hshe]
  split
  · constructor
    · calc 2 ^ 53 ≤ c / 2 ^ sh * 2 ^ sh := hbase
        _ ≤ (c / 2 ^ sh + 1) * 2 ^ sh := Nat.mul_le_mul_right _ (by omega)
    · have : (c / 2 ^ sh + 1) * 2 ^ sh = c / 2 ^ sh * 2 ^ sh + 2 ^ sh := by ring
      rw [this]
      have : (2:Nat) ^ 64 + 2 ^ 64 < 2 ^ 129 := by norm_num
      omega
  · exact ⟨hbase, by omega⟩


/-- The scaled quotient of `double_div`, rounded to the nearest integer, a tie
going to the even one. -/
theorem double_div_norm (s b : Nat) (hs1 : 1 ≤ s) (hs2 : s < 2 ^ 51) (hb1 : 1 ≤ b)
    (hb2 : b < 2 ^ 129) :
    ∃ j, (double_div s b).2 = j ∧ 2 ≤ j ∧ 2 ^ 52 * b ≤ s * 2 ^ j ∧ s * 2 ^ j < 2 ^ 53 * b ∧
      (double_div s b).1 =
        if b < 2 * (s * 2 ^ j % b) ∨ (2 * (s * 2 ^ j % b) = b ∧ s * 2 ^ j / b % 2 = 1)
        then s * 2 ^ j / b + 1 else s * 2 ^ j / b := by
  obtain ⟨hs3, hs4⟩ := ilog2_spec s hs1 (lt_trans hs2 (by norm_num))
  obtain ⟨hb3, hb4⟩ := ilog2_spec b hb1 hb2
  have hls : ilog2 s < 51 := ilog2_lt_of_lt s 51 hs1 (lt_trans hs2 (by norm_num)) hs2
  obtain ⟨j0, hj0⟩ : ∃ j0, 52 + ilog2 b - ilog2 s = j0 := ⟨_, rfl⟩
  have hj0e : ilog2 s + 1 + j0 = 53 + ilog2 b := by omega
  have F1 : s * 2 ^ j0 < 2 ^ 53 * b := by
    calc s * 2 ^ j0 < 2 ^ (ilog2 s + 1) * 2 ^ j0 :=
          Nat.mul_lt_mul_of_pos_right hs4 (by positivity)
      _ = 2 ^ 53 * 2 ^ ilog2 b := by rw [← pow_add, hj0e, pow_add]
      _ ≤ 2 ^ 53 * b := Nat.mul_le_mul_left _ hb3
  have F2 : 2 ^ 52 * b < s * 2 ^ (j0 + 1) := by
    calc 2 ^ 52 * b < 2 ^ 52 * 2 ^ (ilog2 b + 1) :=
          Nat.mul_lt_mul_of_pos_left hb4 (by positivity)
      _ = 2 ^ ilog2 s * 2 ^ (j0 + 1) := by
          rw [← pow_add, ← pow_add]; congr 1; omega
      _ ≤ s * 2 ^ (j0 + 1) := Nat.mul_le_mul_right _ hs3
  by_cases hc : s * 2 ^ j0 < 2 ^ 52 * b
  · refine ⟨j0 + 1, ?_, by omega, le_of_lt F2, ?_, ?_⟩
    · simp only [double_div, hj0, hc, if_true]; split <;> rfl
    · have : s * 2 ^ (j0 + 1) = 2 * (s * 2 ^ j0) := by rw [pow_succ]; ring
      omega
    · simp only [double_div, hj0, hc, if_true]; split <;> rfl
  · refine ⟨j0, ?_, by omega, by omega, F1, ?_⟩
    · simp only [double_div, hj0, hc, if_false]; split <;> rfl
    · simp only [double_div, hj0, hc, if_false]; split <;> rfl

theorem double_div_ge (s b : Nat) (hs1 : 1 ≤ s) (hs2 : s < 2 ^ 51) (hb1 : 1 ≤ b)
    (hb2 : b < 2 ^ 129) (h : 3 * b ≤ 4 * s) :
    3 * 2 ^ (double_div s b).2 ≤ 4 * (double_div s b).1 := by
  obtain ⟨j, hj, hj2, hlo, hhi, hm⟩ := double_div_norm s b hs1 hs2 hb1 hb2
  rw [hj]
  obtain ⟨P, hP⟩ : ∃ P, 2 ^ j = 4 * P := ⟨2 ^ (j - 2), by
    have : j = (j - 2) + 2 := by omega
    rw [this, pow_add]; simp; ring⟩
  have hdm := Nat.div_add_mod (s * 2 ^ j) b
  have hr := Nat.mod_lt (s * 2 ^ j) (by omega : b > 0)
  have hmle : s * 2 ^ j / b ≤ (double_div s b).1 := by rw [hm]; split <;> omega
  have h3P : 3 * P < s * 2 ^ j / b + 1 := by
    apply Nat.lt_of_mul_lt_mul_left (a := b)
    have e1 : b * (3 * P) ≤ s * (4 * P) := by
      calc b * (3 * P) = 3 * b * P := by ring
        _ ≤ 4 * s * P := Nat.mul_le_mul_right _ h
        _ = s * (4 * P) := by ring
    rw [hP] at hdm hr
    calc b * (3 * P) ≤ s * (4 * P) := e1
      _ = b * (s * (4 * P) / b) + s * (4 * P) % b := hdm.symm
      _ < b * (s * (4 * P) / b) + b := by omega
      _ = b * (s * (4 * P) / b + 1) := by ring
      _ = b * (s * 2 ^ j / b + 1) := by rw [hP]
  omega

theorem double_div_lt (s b : Nat) (hs1 : 1 ≤ s) (hs2 : s < 2 ^ 51) (hb1 : 1 ≤ b)
    (hb2 : b < 2 ^ 129) (h : 4 * s < 3 * b) :
    ¬ 3 * 2 ^ (double_div s b).2 ≤ 4 * (double_div s b).1 := by
  obtain ⟨j, hj, _, hlo, hhi, hm⟩ := double_div_norm s b hs1 hs2 hb1 hb2
  rw [hj, hm]
  have hdm := Nat.div_add_mod (s * 2 ^ j) b
  have hr := Nat.mod_lt (s * 2 ^ j) (by omega : b > 0)
  have hmlt : s * 2 ^ j / b < 2 ^ 53 := by
    rw [Nat.div_lt_iff_lt_mul (by omega)]; exact hhi
  have hj53 : 53 ≤ j := by
    by_contra hcon
    have h1 : 2 ^ j ≤ 2 ^ 52 := Nat.pow_le_pow_right (by norm_num) (by omega)
    have h2 : s * 2 ^ j ≤ s * 2 ^ 52 := Nat.mul_le_mul_left _ h1
    omega
  generalize hmdef : s * 2 ^ j / b = m at *
  generalize hrdef : s * 2 ^ j % b = r at *
  rcases Nat.lt_or_ge 53 j with h54 | h53
  · have h1 : 2 ^ 54 ≤ 2 ^ j := Nat.pow_le_pow_right (by norm_num) (by omega)
    clear hdm hlo hhi hj hm
    split <;> omega
  · have hje : j = 53 := by omega
    subst hje
    have hmM : m < 3 * 2 ^ 51 := by
      by_contra hcon
      have : b * (3 * 2 ^ 51) ≤ b * m := Nat.mul_le_mul_left _ (by omega)
      clear hj hm hmlt hr hb2 hmdef hrdef
      omega
    rcases Nat.lt_or_ge (m + 1) (3 * 2 ^ 51) with hlt | hge
    · clear hdm hlo hhi hj hm hr
      split <;> omega
    · have hme : m = 3 * 2 ^ 51 - 1 := by omega
      have hbm : b * m = b * (3 * 2 ^ 51 - 1) := by rw [hme]
      have hrb : r + 2 ^ 51 ≤ b := by
        clear hj hm hmlt hr hb2 hmdef hrdef hme hge hmM
        omega
      have hno : ¬ (b < 2 * r ∨ (2 * r = b ∧ m % 2 = 1)) := by
        clear hj hm hmlt hr hb2 hmdef hrdef hdm hbm
        omega
      rw [if_neg hno]
      omega

theorem load_factor_reached_iff (size : Int) (capacity : Nat) (hs : size ≤ INT_MAX)
    (hc1 : 1 ≤ capacity) (hc2 : capacity < UINT64_MOD) :
    load_factor_reached size capacity = true ↔ 3 * (capacity : Int) ≤ 4 * size := by
  have hmax : INT_MAX = 2 ^ 31 - 1 := rfl
  have hmod : UINT64_MOD = 2 ^ 64 := rfl
  rw [hmax] at hs
  rw [hmod] at hc2
  by_cases h0 : size ≤ 0
  · simp only [load_factor_reached, h0, if_true]
    constructor
    · intro h; cases h
    · intro h; omega
  · obtain ⟨s, rfl⟩ : ∃ s : Nat, size = (s : Int) := ⟨size.toNat, by omega⟩
    have hs1 : 1 ≤ s := by omega
    have hs2 : s < 2 ^ 51 := by omega
    have hc0 : capacity ≠ 0 := by omega
    simp only [load_factor_reached, h0, if_false, hc0, Int.toNat_ofNat, decide_eq_true_eq]
    rcases Nat.lt_or_ge capacity (2 ^ 53) with hsmall | hbig
    · rw [to_double_exact capacity hsmall]
      have hb2 : capacity < 2 ^ 129 := by omega
      constructor
      · intro h
        by_contra hcon
        exact double_div_lt s capacity hs1 hs2 hc1 hb2 (by omega) h
      · intro h
        exact double_div_ge s capacity hs1 hs2 hc1 hb2 (by omega)
    · obtain ⟨hb, hb2⟩ := to_double_large capacity hbig hc2
      constructor
      · intro h
        exact absurd h (double_div_lt s _ hs1 hs2 (by omega) hb2 (by omega))
      · intro h; omega

/-! ## What `rehash` computes -/

theorem flatten_set_cons_perm {α : Type} (l : List (List α)) (h : Nat) (x : α) (head : List α)
    (hh : l[h]? = some head) : (l.set h (x :: head)).flatten.Perm (x :: l.flatten) := by
  induction l generalizing h with
  | nil => simp at hh
  | cons a l ih =>
    cases h with
    | zero =>
      simp only [List.getElem?_cons_zero, Option.some.injEq] at hh
      subst hh
      simp
    | succ h =>
      simp only [List.getElem?_cons_succ] at hh
      simp only [List.set_cons_succ, List.flatten_cons]
      have := ih h hh
      exact (List.Perm.append_left a this).trans (List.perm_middle)

theorem getD_set_chain {α : Type} (l : List (List α)) (h j : Nat) (c : List α) (hh : h < l.length) :
    (l.set h c).getD j [] = if j = h then c else l.getD j [] := by
  simp only [List.getD_eq_getElem?_getD, List.getElem?_set]
  by_cases hj : h = j
  · subst hj; simp [hh]
  · simp [hj, Ne.symm hj, eq_comm]

theorem rehash_chain_ok (C : Nat) (hC : 1 ≤ C) (ch : List (hashmap_node_t K V)) :
    ∀ temp : List (List (hashmap_node_t K V)), temp.length = C →
    ∃ t, rehash_chain C ch temp = .ok t ∧ t.length = C ∧
      (∀ j, t.getD j [] = (ch.filter (fun it => it.hash % C = j)).reverse ++ temp.getD j []) ∧
      t.flatten.Perm (ch ++ temp.flatten) := by
  induction ch with
  | nil => intro temp ht; exact ⟨temp, rfl, ht, by simp, by simp⟩
  | cons it next ih =>
    intro temp ht
    have hC0 : C ≠ 0 := by omega
    have hlt : it.hash % C < temp.length := by rw [ht]; exact Nat.mod_lt _ (by omega)
    have hget : temp[it.hash % C]? = some (temp.getD (it.hash % C) []) := by
      rw [List.getD_eq_getElem?_getD, List.getElem?_eq_getElem hlt]; rfl
    obtain ⟨t, ht1, ht2, ht3, ht4⟩ :=
      ih (temp.set (it.hash % C) (it :: temp.getD (it.hash % C) [])) (by simp [ht])
    refine ⟨t, ?_, ht2, ?_, ?_⟩
    · simp only [rehash_chain, hC0, if_false, hget]; exact ht1
    · intro j
      rw [ht3 j, getD_set_chain _ _ _ _ hlt]
      by_cases hj : it.hash % C = j
      · subst hj; simp [List.filter_cons]
      · simp [List.filter_cons, hj, Ne.symm hj]
    · refine ht4.trans ?_
      have := flatten_set_cons_perm temp (it.hash % C) it _ hget
      refine (List.Perm.append_left next this).trans ?_
      exact List.perm_middle


theorem rehash_loop_ok (buckets : List (List (hashmap_node_t K V))) (C : Nat) (hC : 1 ≤ C) :
    ∀ (n i : Nat) (temp : List (List (hashmap_node_t K V))), temp.length = C →
      i + n ≤ buckets.length →
    ∃ t, rehash_loop buckets C n i temp = .ok t ∧ t.length = C ∧
      (∀ j, t.getD j [] =
        ((((buckets.drop i).take n).flatten).filter (fun it => it.hash % C = j)).reverse
          ++ temp.getD j []) ∧
      t.flatten.Perm (((buckets.drop i).take n).flatten ++ temp.flatten) := by
  intro n
  induction n with
  | zero => intro i temp ht _; exact ⟨temp, rfl, ht, by simp, by simp⟩
  | succ n ih =>
    intro i temp ht hin
    have hi : i < buckets.length := by omega
    obtain ⟨t1, h1, h2, h3, h4⟩ := rehash_chain_ok C hC buckets[i] temp ht
    obtain ⟨t, g1, g2, g3, g4⟩ := ih (i + 1) t1 h2 (by omega)
    have hdrop : (buckets.drop i).take (n + 1) = buckets[i] :: (buckets.drop (i + 1)).take n := by
      rw [List.drop_eq_getElem_cons hi, List.take_succ_cons]
    refine ⟨t, ?_, g2, ?_, ?_⟩
    · simp only [rehash_loop, List.getElem?_eq_getElem hi, h1]; exact g1
    · intro j
      rw [g3 j, h3 j, hdrop]
      simp [List.filter_append]
    · rw [hdrop]
      refine g4.trans ?_
      refine (List.Perm.append_left _ h4).trans ?_
      simp only [List.flatten_cons, List.append_assoc]
      exact List.perm_append_comm_assoc _ _ _

theorem rehash_ok (m : hashmap_t K V) (C : Nat) (hC : 1 ≤ C)
    (hlen : m.buckets.length = m.capacity) :
    ∃ bs, rehash m C true = .ok (true, { m with buckets := bs, capacity := C }) ∧
      bs.length = C ∧
      (∀ j, bs.getD j [] = ((nodes m).filter (fun it => it.hash % C = j)).reverse) ∧
      bs.flatten.Perm (nodes m) := by
  obtain ⟨t, h1, h2, h3, h4⟩ :=
    rehash_loop_ok m.buckets C hC m.capacity 0 (List.replicate C []) (by simp) (by omega)
  have hall : (m.buckets.drop 0).take m.capacity = m.buckets := by
    rw [List.drop_zero, ← hlen, List.take_length]
  rw [hall] at h3 h4
  refine ⟨t, ?_, h2, ?_, ?_⟩
  · simp [rehash, h1]
  · intro j
    rw [h3 j]
    simp [nodes, List.getD_eq_getElem?_getD, List.getElem?_replicate]
    split <;> rfl
  · simpa [nodes] using h4

/-! ## Chains, and what `hashmap_remove` walks over -/

theorem getElem?_eq_some_chain (m : hashmap_t K V) (i : Nat) (hi : i < m.buckets.length) :
    m.buckets[i]? = some (chain m i) := by
  simp [chain, List.getD_eq_getElem?_getD, List.getElem?_eq_getElem hi]

theorem chain_sublist_nodes (m : hashmap_t K V) (i : Nat) :
    ∀ it, it ∈ chain m i → it ∈ nodes m := by
  intro it hit
  unfold chain at hit
  rw [List.getD_eq_getElem?_getD] at hit
  cases hget : m.buckets[i]? with
  | none => rw [hget] at hit; simp at hit
  | some c =>
    rw [hget] at hit
    simp only [Option.getD_some] at hit
    have : c ∈ m.buckets := List.mem_iff_getElem?.mpr ⟨i, hget⟩
    simp only [nodes, List.mem_flatten]
    exact ⟨c, this, hit⟩

theorem mem_nodes_iff (m : hashmap_t K V) (it : hashmap_node_t K V) :
    it ∈ nodes m ↔ ∃ i, it ∈ chain m i := by
  constructor
  · intro h
    simp only [nodes, List.mem_flatten] at h
    obtain ⟨c, hc, hit⟩ := h
    obtain ⟨i, hi, rfl⟩ := List.getElem_of_mem hc
    exact ⟨i, by simpa [chain, List.getD_eq_getElem?_getD, List.getElem?_eq_getElem hi] using hit⟩
  · rintro ⟨i, hi⟩; exact chain_sublist_nodes m i it hi

/-- Replacing a chain by one with the same nodes plus `x`. -/
theorem flatten_set_perm_cons {α : Type} (l : List (List α)) (h : Nat) (x : α) (c c1 : List α)
    (hh : l[h]? = some c) (hp : c1.Perm (x :: c)) :
    (l.set h c1).flatten.Perm (x :: l.flatten) := by
  induction l generalizing h with
  | nil => simp at hh
  | cons a l ih =>
    cases h with
    | zero =>
      simp only [List.getElem?_cons_zero, Option.some.injEq] at hh
      subst hh
      simpa using List.Perm.append_right l.flatten hp
    | succ h =>
      simp only [List.getElem?_cons_succ] at hh
      simp only [List.set_cons_succ, List.flatten_cons]
      exact (List.Perm.append_left a (ih h hh)).trans List.perm_middle

/-- Replacing a chain by one with the same nodes except `x`. -/
theorem flatten_set_perm_erase {α : Type} (l : List (List α)) (h : Nat) (x : α) (c c1 : List α)
    (hh : l[h]? = some c) (hp : c.Perm (x :: c1)) :
    l.flatten.Perm (x :: (l.set h c1).flatten) := by
  induction l generalizing h with
  | nil => simp at hh
  | cons a l ih =>
    cases h with
    | zero =>
      simp only [List.getElem?_cons_zero, Option.some.injEq] at hh
      subst hh
      simpa using List.Perm.append_right l.flatten hp
    | succ h =>
      simp only [List.getElem?_cons_succ] at hh
      simp only [List.set_cons_succ, List.flatten_cons]
      exact (List.Perm.append_left a (ih h hh)).trans List.perm_middle

theorem remove_walk_none (equal : K → K → Bool) (key : K) (ch : List (hashmap_node_t K V)) :
    remove_walk equal key ch = none ↔ ∀ x ∈ ch, equal key x.pair.key = false := by
  induction ch with
  | nil => simp [remove_walk]
  | cons it next ih =>
    simp only [remove_walk, List.mem_cons, forall_eq_or_imp]
    by_cases hit : equal key it.pair.key = true
    · simp [hit]
    · simp only [hit, if_false]
      have hf : equal key it.pair.key = false := by simpa using hit
      cases hw : remove_walk equal key next with
      | none => simpa [hf] using ih.mp hw
      | some r =>
        simp only [hf, true_and]
        constructor
        · intro h; cases h
        · intro h; rw [ih.mpr h] at hw; cases hw

theorem remove_walk_some (equal : K → K → Bool) (key : K) (ch : List (hashmap_node_t K V))
    (p : hashmap_pair_t K V) (rest : List (hashmap_node_t K V))
    (h : remove_walk equal key ch = some (p, rest)) :
    ∃ pre it post, ch = pre ++ it :: post ∧ (∀ x ∈ pre, equal key x.pair.key = false) ∧
      equal key it.pair.key = true ∧ p = it.pair ∧ rest = pre ++ post := by
  induction ch generalizing p rest with
  | nil => simp [remove_walk] at h
  | cons it next ih =>
    simp only [remove_walk] at h
    by_cases hit : equal key it.pair.key = true
    · simp only [hit, if_true, Option.some.injEq, Prod.mk.injEq] at h
      exact ⟨[], it, next, rfl, by simp, hit, h.1.symm, by simp [h.2]⟩
    · rw [if_neg hit] at h
      cases hw : remove_walk equal key next with
      | none => rw [hw] at h; cases h
      | some r =>
        obtain ⟨p1, rest1⟩ := r
        rw [hw] at h
        simp only [Option.some.injEq, Prod.mk.injEq] at h
        obtain ⟨pre, it1, post, h1, h2, h3, h4, h5⟩ := ih p1 rest1 hw
        refine ⟨it :: pre, it1, post, by simp [h1], ?_, h3, by rw [← h.1, h4], by simp [← h.2, h5]⟩
        intro x hx
        rcases List.mem_cons.mp hx with rfl | hx
        · simpa using hit
        · exact h2 x hx

theorem remove_walk_split (equal : K → K → Bool) (key : K)
    (pre : List (hashmap_node_t K V)) (it : hashmap_node_t K V) (post : List (hashmap_node_t K V))
    (hpre : ∀ x ∈ pre, equal key x.pair.key = false) (hit : equal key it.pair.key = true) :
    remove_walk equal key (pre ++ it :: post) = some (it.pair, pre ++ post) := by
  induction pre with
  | nil => simp [remove_walk, hit]
  | cons a pre ih =>
    have ha : equal key a.pair.key = false := hpre a (by simp)
    have := ih (fun x hx => hpre x (by simp [hx]))
    simp [remove_walk, ha, this]

/-! ## What `hashmap_add` computes -/

theorem chain_set (m : hashmap_t K V) (h j : Nat) (c : List (hashmap_node_t K V))
    (hh : h < m.buckets.length) (sz : Int) :
    chain { m with buckets := m.buckets.set h c, size := sz } j = if j = h then c else chain m j := by
  simp only [chain]
  exact getD_set_chain m.buckets h j c hh

theorem add_grow_of_not_reached (m : hashmap_t K V) (hwf : WF m) (growOk : Bool)
    (h : ¬ 3 * (m.capacity : Int) ≤ 4 * m.size) : add_grow m growOk = .ok (true, m) := by
  have := (load_factor_reached_iff m.size m.capacity hwf.size_le hwf.capacity_pos
    hwf.capacity_lt).not.mpr h
  simp only [add_grow, this]
  rfl

theorem add_grow_of_reached (m : hashmap_t K V) (hwf : WF m) (growOk : Bool)
    (h : 3 * (m.capacity : Int) ≤ 4 * m.size) :
    add_grow m growOk = rehash m (2 * m.capacity) growOk ∧ 2 * m.capacity < UINT64_MOD := by
  have hr := (load_factor_reached_iff m.size m.capacity hwf.size_le hwf.capacity_pos
    hwf.capacity_lt).mpr h
  have h1 := hwf.size_le
  have hmax : INT_MAX = 2 ^ 31 - 1 := rfl
  have hmod : UINT64_MOD = 2 ^ 64 := rfl
  rw [hmax] at h1
  have h2 : 2 * m.capacity < UINT64_MOD := by rw [hmod]; omega
  have h3 : m.capacity * 2 % UINT64_MOD = 2 * m.capacity := by
    rw [Nat.mul_comm, Nat.mod_eq_of_lt h2]
  simp only [add_grow, hr, if_true, h3]
  exact ⟨trivial, h2⟩

theorem rehash_failed (m : hashmap_t K V) (C : Nat) : rehash m C false = .ok (false, m) := rfl

theorem rehash_wf (m : hashmap_t K V) (hwf : WF m) (C : Nat) (hC : 1 ≤ C) (hC2 : C < UINT64_MOD)
    (bs : List (List (hashmap_node_t K V))) (hlen : bs.length = C)
    (hperm : bs.flatten.Perm (nodes m)) : WF { m with buckets := bs, capacity := C } where
  capacity_pos := hC
  capacity_lt := hC2
  length_buckets := hlen
  size_eq := by
    show m.size = ((bs.flatten).length : Int)
    rw [hperm.length_eq]; exact hwf.size_eq
  size_le := hwf.size_le

theorem rehash_placed (m : hashmap_t K V) (C : Nat)
    (bs : List (List (hashmap_node_t K V)))
    (hget : ∀ j, bs.getD j [] = ((nodes m).filter (fun it => it.hash % C = j)).reverse) :
    Placed { m with buckets := bs, capacity := C } := by
  intro i it hit
  simp only [chain] at hit
  rw [hget i] at hit
  simpa using (List.mem_filter.mp (List.mem_reverse.mp hit)).2

/-- What the growth step of a call with succeeding allocation leaves. -/
theorem add_grow_ok (m : hashmap_t K V) (hwf : WF m) :
    ∃ mg, add_grow m true = .ok (true, mg) ∧ WF mg ∧ (nodes mg).Perm (nodes m) ∧
      mg.size = m.size ∧ mg.hash = m.hash ∧ mg.equal = m.equal ∧ (Placed m → Placed mg) ∧
      (mg.capacity = m.capacity ∨ mg.capacity = 2 * m.capacity) := by
  by_cases h : 3 * (m.capacity : Int) ≤ 4 * m.size
  · obtain ⟨h1, h2⟩ := add_grow_of_reached m hwf true h
    have hcp := hwf.capacity_pos
    obtain ⟨bs, g1, g2, g3, g4⟩ := rehash_ok m (2 * m.capacity) (by omega) hwf.length_buckets
    refine ⟨_, h1.trans g1, rehash_wf m hwf _ (by omega) h2 bs g2 g4, g4, rfl, rfl, rfl,
      fun _ => rehash_placed m _ bs g3, Or.inr rfl⟩
  · exact ⟨m, add_grow_of_not_reached m hwf true h, hwf, List.Perm.refl _, rfl, rfl, rfl,
      fun hp => hp, Or.inl rfl⟩

theorem add_grow_failed (m : hashmap_t K V) (hwf : WF m) :
    add_grow m false = .ok (false, m) ∨ add_grow m false = .ok (true, m) := by
  by_cases h : 3 * (m.capacity : Int) ≤ 4 * m.size
  · exact Or.inl ((add_grow_of_reached m hwf false h).1.trans (rehash_failed m _))
  · exact Or.inr (add_grow_of_not_reached m hwf false h)

theorem add_entry_ok (m : hashmap_t K V) (p : hashmap_pair_t K V) (hwf : WF m)
    (hsz : m.size ≠ INT_MAX) :
    add_entry m p true = .ok (true, some (link_front m p)) := by
  have hcap : m.capacity ≠ 0 := by have := hwf.capacity_pos; omega
  have hlt : m.hash p.key % m.capacity < m.buckets.length := by
    rw [hwf.length_buckets]; exact Nat.mod_lt _ (by omega)
  simp only [add_entry, hcap, if_false, getElem?_eq_some_chain m _ hlt, hsz]
  rfl

theorem add_entry_overflow (m : hashmap_t K V) (p : hashmap_pair_t K V) (hwf : WF m)
    (hsz : m.size = INT_MAX) : add_entry m p true = .error .intOverflow := by
  have hcap : m.capacity ≠ 0 := by have := hwf.capacity_pos; omega
  have hlt : m.hash p.key % m.capacity < m.buckets.length := by
    rw [hwf.length_buckets]; exact Nat.mod_lt _ (by omega)
  simp only [add_entry, hcap, if_false, getElem?_eq_some_chain m _ hlt, hsz]
  rfl

theorem add_entry_failed (m : hashmap_t K V) (p : hashmap_pair_t K V) (hwf : WF m) :
    add_entry m p false = .ok (false, some m) := by
  have hcap : m.capacity ≠ 0 := by have := hwf.capacity_pos; omega
  simp only [add_entry, hcap, if_false]
  rfl

theorem add_entry_wf (m : hashmap_t K V) (p : hashmap_pair_t K V) (hwf : WF m)
    (hsz : m.size ≠ INT_MAX) :
    WF (link_front m p) ∧
    (nodes (link_front m p)).Perm
      ({ pair := p, hash := m.hash p.key % m.capacity } :: nodes m) := by
  unfold link_front
  have hcap : m.capacity ≠ 0 := by have := hwf.capacity_pos; omega
  have hlt : m.hash p.key % m.capacity < m.buckets.length := by
    rw [hwf.length_buckets]; exact Nat.mod_lt _ (by omega)
  have hperm := flatten_set_cons_perm m.buckets _
    ({ pair := p, hash := m.hash p.key % m.capacity } : hashmap_node_t K V) _
    (getElem?_eq_some_chain m _ hlt)
  refine ⟨⟨hwf.capacity_pos, hwf.capacity_lt, ?_, ?_, ?_⟩, hperm⟩
  · simp [hwf.length_buckets]
  · show m.size + 1 = ((List.flatten _).length : Int)
    rw [hperm.length_eq, List.length_cons, hwf.size_eq]; simp [nodes]
  · show m.size + 1 ≤ INT_MAX
    have := hwf.size_le
    omega

theorem add_entry_placed (m : hashmap_t K V) (p : hashmap_pair_t K V) (hwf : WF m)
    (hpl : Placed m) :
    Placed (link_front m p) := by
  unfold link_front
  have hcap : 0 < m.capacity := hwf.capacity_pos
  have hlt : m.hash p.key % m.capacity < m.buckets.length := by
    rw [hwf.length_buckets]; exact Nat.mod_lt _ hcap
  intro i it hit
  rw [chain_set m _ i _ hlt] at hit
  show it.hash % m.capacity = i
  by_cases hi : i = m.hash p.key % m.capacity
  · rw [if_pos hi] at hit
    rcases List.mem_cons.mp hit with rfl | h
    · rw [hi]; exact Nat.mod_mod _ _
    · rw [hi]; exact hpl _ it h
  · rw [if_neg hi] at hit
    exact hpl i it hit

theorem add_grow_elim (m : hashmap_t K V) (hwf : WF m) (growOk b : Bool) (mg : hashmap_t K V)
    (h : add_grow m growOk = .ok (b, mg)) :
    WF mg ∧ (nodes mg).Perm (nodes m) ∧ mg.size = m.size ∧ mg.hash = m.hash ∧
      mg.equal = m.equal ∧ (Placed m → Placed mg) ∧ (b = false → mg = m ∧ growOk = false) := by
  cases growOk with
  | true =>
    obtain ⟨mg1, h1, h2, h3, h4, h5, h6, h7, _⟩ := add_grow_ok m hwf
    rw [h1] at h
    simp only [Except.ok.injEq, Prod.mk.injEq] at h
    obtain ⟨rfl, rfl⟩ := h
    exact ⟨h2, h3, h4, h5, h6, h7, by simp⟩
  | false =>
    rcases add_grow_failed m hwf with h1 | h1 <;>
    · rw [h1] at h
      simp only [Except.ok.injEq, Prod.mk.injEq] at h
      obtain ⟨rfl, rfl⟩ := h
      exact ⟨hwf, List.Perm.refl _, rfl, rfl, rfl, fun hp => hp, by simp⟩

theorem add_entry_elim (m : hashmap_t K V) (hwf : WF m) (p : hashmap_pair_t K V)
    (nodeOk b : Bool) (m1 : Option (hashmap_t K V)) (h : add_entry m p nodeOk = .ok (b, m1)) :
    (b = true ∧ nodeOk = true ∧ m.size ≠ INT_MAX ∧ m1 = some (link_front m p)) ∨
      (b = false ∧ nodeOk = false ∧ m1 = some m) := by
  cases nodeOk with
  | false =>
    rw [add_entry_failed m p hwf] at h
    simp only [Except.ok.injEq, Prod.mk.injEq] at h
    exact Or.inr ⟨h.1.symm, rfl, h.2.symm⟩
  | true =>
    by_cases hsz : m.size = INT_MAX
    · rw [add_entry_overflow m p hwf hsz] at h; cases h
    · rw [add_entry_ok m p hwf hsz] at h
      simp only [Except.ok.injEq, Prod.mk.injEq] at h
      exact Or.inl ⟨h.1.symm, rfl, hsz, h.2.symm⟩

theorem hashmap_add_eq (m : hashmap_t K V) (p : hashmap_pair_t K V) (growOk nodeOk : Bool) :
    hashmap_add (some m) (some p) growOk nodeOk =
      match add_grow m growOk with
      | .error f => .error f
      | .ok (false, m1) => .ok (false, some m1)
      | .ok (true, m1) => add_entry m1 p nodeOk := rfl

theorem hashmap_add_elim (m : hashmap_t K V) (hwf : WF m) (p : hashmap_pair_t K V)
    (growOk nodeOk b : Bool) (m1 : Option (hashmap_t K V))
    (h : hashmap_add (some m) (some p) growOk nodeOk = .ok (b, m1)) :
    (b = false ∧ m1 = some m ∧ add_grow m growOk = .ok (false, m) ∧ growOk = false) ∨
      ∃ mg, add_grow m growOk = .ok (true, mg) ∧ add_entry mg p nodeOk = .ok (b, m1) := by
  rw [hashmap_add_eq] at h
  cases hg : add_grow m growOk with
  | error f => rw [hg] at h; cases h
  | ok r =>
    obtain ⟨bg, mg⟩ := r
    rw [hg] at h
    cases bg with
    | false =>
      simp only [Except.ok.injEq, Prod.mk.injEq] at h
      obtain ⟨_, _, _, _, _, _, h7⟩ := add_grow_elim m hwf growOk false mg hg
      obtain ⟨rfl, hgo⟩ := h7 rfl
      exact Or.inl ⟨h.1.symm, h.2.symm, rfl, hgo⟩
    | true => exact Or.inr ⟨mg, rfl, h⟩

/-- A call of `hashmap_add` with succeeding allocations on a well-formed table
that is not full links the pair in front of its bucket of the grown table. -/
theorem hashmap_add_ok (m : hashmap_t K V) (hwf : WF m) (p : hashmap_pair_t K V)
    (hsz : m.size ≠ INT_MAX) :
    ∃ mg, add_grow m true = .ok (true, mg) ∧
      hashmap_add (some m) (some p) true true = .ok (true, some (link_front mg p)) := by
  obtain ⟨mg, h1, h2, _, h4, _⟩ := add_grow_ok m hwf
  refine ⟨mg, h1, ?_⟩
  rw [hashmap_add_eq, h1]
  exact add_entry_ok mg p h2 (by rw [h4]; exact hsz)

/-- The table after any call of `hashmap_add` that returns. -/
theorem hashmap_add_inv (m : hashmap_t K V) (hwf : WF m) (p : hashmap_pair_t K V)
    (growOk nodeOk b : Bool) (m1 : hashmap_t K V)
    (h : hashmap_add (some m) (some p) growOk nodeOk = .ok (b, some m1)) :
    WF m1 ∧ (Placed m → Placed m1) ∧ m1.hash = m.hash ∧ m1.equal = m.equal ∧
      (pairs m1).Perm (if b then p :: pairs m else pairs m) := by
  rcases hashmap_add_elim m hwf p growOk nodeOk b (some m1) h with ⟨rfl, h1, _, _⟩ | ⟨mg, hg, he⟩
  · simp only [Option.some.injEq] at h1
    subst h1
    exact ⟨hwf, fun hp => hp, rfl, rfl, List.Perm.refl _⟩
  · obtain ⟨g1, g2, g3, g4, g5, g6, _⟩ := add_grow_elim m hwf growOk true mg hg
    rcases add_entry_elim mg g1 p nodeOk b (some m1) he with ⟨rfl, _, hsz, h1⟩ | ⟨rfl, _, h1⟩
    · simp only [Option.some.injEq] at h1
      subst h1
      obtain ⟨w1, w2⟩ := add_entry_wf mg p g1 hsz
      refine ⟨w1, fun hp => add_entry_placed mg p g1 (g6 hp), g4, g5, ?_⟩
      simp only [pairs, if_true]
      exact (w2.map _).trans (List.Perm.cons _ (g2.map _))
    · simp only [Option.some.injEq] at h1
      subst h1
      exact ⟨g1, g6, g4, g5, by simpa [pairs] using g2.map _⟩

/-! ## What `hashmap_remove` computes -/

theorem hashmap_remove_empty (m : hashmap_t K V) (k : K) (hsz : m.size = 0) :
    hashmap_remove (some m) k = .ok (none, some m) := by
  simp [hashmap_remove, hsz]

theorem hashmap_remove_null (m : hashmap_t K V) (k : K) (hwf : WF m) (hsz : m.size ≠ 0)
    (hch : chain m (m.hash k % m.capacity) = []) :
    hashmap_remove (some m) k = .error .nullDeref := by
  have hcap : m.capacity ≠ 0 := by have := hwf.capacity_pos; omega
  have hlt : m.hash k % m.capacity < m.buckets.length := by
    rw [hwf.length_buckets]; exact Nat.mod_lt _ (by omega)
  simp only [hashmap_remove, hsz, if_false, hcap, getElem?_eq_some_chain m _ hlt, hch]

theorem size_ne_int_min (m : hashmap_t K V) (hwf : WF m) : m.size ≠ INT_MIN := by
  have h := hwf.size_eq
  have hmin : INT_MIN = -(2 ^ 31) := rfl
  rw [hmin]
  omega

theorem hashmap_remove_missing (m : hashmap_t K V) (k : K) (hwf : WF m)
    (hch : chain m (m.hash k % m.capacity) ≠ [])
    (hno : ∀ x ∈ chain m (m.hash k % m.capacity), m.equal k x.pair.key = false) :
    hashmap_remove (some m) k = .ok (none, some m) := by
  have hcap : m.capacity ≠ 0 := by have := hwf.capacity_pos; omega
  have hlt : m.hash k % m.capacity < m.buckets.length := by
    rw [hwf.length_buckets]; exact Nat.mod_lt _ (by omega)
  by_cases hsz : m.size = 0
  · exact hashmap_remove_empty m k hsz
  · simp only [hashmap_remove, hsz, if_false, hcap, getElem?_eq_some_chain m _ hlt]
    cases hc : chain m (m.hash k % m.capacity) with
    | nil => exact absurd hc hch
    | cons it next =>
      rw [hc] at hno
      have h1 : m.equal k it.pair.key = false := hno it (by simp)
      have h2 := (remove_walk_none m.equal k next).mpr (fun x hx => hno x (by simp [hx]))
      simp only [h1, h2]
      rfl

theorem hashmap_remove_found (m : hashmap_t K V) (k : K) (hwf : WF m)
    (pre : List (hashmap_node_t K V)) (it : hashmap_node_t K V) (post : List (hashmap_node_t K V))
    (hch : chain m (m.hash k % m.capacity) = pre ++ it :: post)
    (hpre : ∀ x ∈ pre, m.equal k x.pair.key = false) (hit : m.equal k it.pair.key = true) :
    hashmap_remove (some m) k =
      .ok (some it.pair, some (unlink m (m.hash k % m.capacity) (pre ++ post))) := by
  have hcap : m.capacity ≠ 0 := by have := hwf.capacity_pos; omega
  have hlt : m.hash k % m.capacity < m.buckets.length := by
    rw [hwf.length_buckets]; exact Nat.mod_lt _ (by omega)
  have hmin := size_ne_int_min m hwf
  have hsz : m.size ≠ 0 := by
    have h1 := hwf.size_eq
    have h2 : it ∈ nodes m := chain_sublist_nodes m _ it (by rw [hch]; simp)
    have h3 : 0 < (nodes m).length := List.length_pos_of_mem h2
    omega
  simp only [hashmap_remove, hsz, if_false, hcap, getElem?_eq_some_chain m _ hlt, hch]
  cases pre with
  | nil =>
    simp only [List.nil_append, hit, if_true, hmin, if_false]
    rfl
  | cons a pre =>
    have ha : m.equal k a.pair.key = false := hpre a (by simp)
    have hw := remove_walk_split m.equal k pre it post (fun x hx => hpre x (by simp [hx])) hit
    simp only [List.cons_append, ha, hw, hmin, if_false]
    rfl

/-- The first node of a chain that matches the key, when there is one. -/
theorem chain_first_match (equal : K → K → Bool) (k : K) (ch : List (hashmap_node_t K V)) :
    (∀ x ∈ ch, equal k x.pair.key = false) ∨
      ∃ pre it post, ch = pre ++ it :: post ∧ (∀ x ∈ pre, equal k x.pair.key = false) ∧
        equal k it.pair.key = true := by
  cases hw : remove_walk equal k ch with
  | none => exact Or.inl ((remove_walk_none equal k ch).mp hw)
  | some r =>
    obtain ⟨pre, it, post, h1, h2, h3, _⟩ := remove_walk_some equal k ch r.1 r.2 hw
    exact Or.inr ⟨pre, it, post, h1, h2, h3⟩

/-- Every way a call of `hashmap_remove` on a well-formed table returns. -/
theorem hashmap_remove_elim (m : hashmap_t K V) (k : K) (hwf : WF m)
    (r : Option (hashmap_pair_t K V)) (m1 : Option (hashmap_t K V))
    (h : hashmap_remove (some m) k = .ok (r, m1)) :
    (r = none ∧ m1 = some m) ∨
      ∃ pre it post, chain m (m.hash k % m.capacity) = pre ++ it :: post ∧
        (∀ x ∈ pre, m.equal k x.pair.key = false) ∧ m.equal k it.pair.key = true ∧
        r = some it.pair ∧ m1 = some (unlink m (m.hash k % m.capacity) (pre ++ post)) := by
  rcases chain_first_match m.equal k (chain m (m.hash k % m.capacity)) with hno | ⟨pre, it, post, h1, h2, h3⟩
  · by_cases hsz : m.size = 0
    · rw [hashmap_remove_empty m k hsz] at h
      simp only [Except.ok.injEq, Prod.mk.injEq] at h
      exact Or.inl ⟨h.1.symm, h.2.symm⟩
    · by_cases hch : chain m (m.hash k % m.capacity) = []
      · rw [hashmap_remove_null m k hwf hsz hch] at h; cases h
      · rw [hashmap_remove_missing m k hwf hch hno] at h
        simp only [Except.ok.injEq, Prod.mk.injEq] at h
        exact Or.inl ⟨h.1.symm, h.2.symm⟩
  · rw [hashmap_remove_found m k hwf pre it post h1 h2 h3] at h
    simp only [Except.ok.injEq, Prod.mk.injEq] at h
    exact Or.inr ⟨pre, it, post, h1, h2, h3, h.1.symm, h.2.symm⟩

theorem unlink_wf (m : hashmap_t K V) (hwf : WF m) (h : Nat) (hlt : h < m.capacity)
    (pre : List (hashmap_node_t K V)) (it : hashmap_node_t K V) (post : List (hashmap_node_t K V))
    (hch : chain m h = pre ++ it :: post) :
    WF (unlink m h (pre ++ post)) ∧ (nodes m).Perm (it :: nodes (unlink m h (pre ++ post))) := by
  have hlt2 : h < m.buckets.length := by rw [hwf.length_buckets]; exact hlt
  have hget := getElem?_eq_some_chain m h hlt2
  rw [hch] at hget
  have hperm := flatten_set_perm_erase m.buckets h it _ (pre ++ post) hget List.perm_middle
  refine ⟨⟨hwf.capacity_pos, hwf.capacity_lt, ?_, ?_, ?_⟩, hperm⟩
  · simp [unlink, hwf.length_buckets]
  · show m.size - 1 = (((m.buckets.set h (pre ++ post)).flatten).length : Int)
    have h1 := hperm.length_eq
    have h2 := hwf.size_eq
    simp only [nodes] at h2
    simp only [List.length_cons] at h1
    omega
  · show m.size - 1 ≤ INT_MAX
    have := hwf.size_le
    omega

theorem unlink_placed (m : hashmap_t K V) (hwf : WF m) (hpl : Placed m) (h : Nat)
    (hlt : h < m.capacity)
    (pre : List (hashmap_node_t K V)) (it : hashmap_node_t K V) (post : List (hashmap_node_t K V))
    (hch : chain m h = pre ++ it :: post) : Placed (unlink m h (pre ++ post)) := by
  have hlt2 : h < m.buckets.length := by rw [hwf.length_buckets]; exact hlt
  intro i x hx
  unfold unlink at hx
  rw [chain_set m h i _ hlt2] at hx
  show x.hash % m.capacity = i
  by_cases hi : i = h
  · rw [if_pos hi] at hx
    rw [hi]
    apply hpl h x
    rw [hch]
    rcases List.mem_append.mp hx with h1 | h1
    · exact List.mem_append_left _ h1
    · exact List.mem_append_right _ (List.mem_cons_of_mem _ h1)
  · rw [if_neg hi] at hx
    exact hpl i x hx

/-- The table after any call of `hashmap_remove` that returns. -/
theorem hashmap_remove_inv (m : hashmap_t K V) (k : K) (hwf : WF m)
    (r : Option (hashmap_pair_t K V)) (m1 : hashmap_t K V)
    (h : hashmap_remove (some m) k = .ok (r, some m1)) :
    WF m1 ∧ (Placed m → Placed m1) ∧ m1.hash = m.hash ∧ m1.equal = m.equal ∧
      (pairs m).Perm (match r with | some p => p :: pairs m1 | none => pairs m1) := by
  have hlt : m.hash k % m.capacity < m.capacity := Nat.mod_lt _ hwf.capacity_pos
  rcases hashmap_remove_elim m k hwf r (some m1) h with ⟨rfl, h1⟩ | ⟨pre, it, post, h1, _, _, rfl, h5⟩
  · simp only [Option.some.injEq] at h1
    subst h1
    exact ⟨hwf, fun hp => hp, rfl, rfl, List.Perm.refl _⟩
  · simp only [Option.some.injEq] at h5
    subst h5
    obtain ⟨w1, w2⟩ := unlink_wf m hwf _ hlt pre it post h1
    exact ⟨w1, fun hp => unlink_placed m hwf hp _ hlt pre it post h1, rfl, rfl,
      by simpa [pairs] using w2.map (fun it => it.pair)⟩

/-! ## Invariants of the reachable tables -/

theorem hashmap_init_wf (c : Nat) (hash : K → Nat) (equal : K → K → Bool) (m : hashmap_t K V)
    (hc1 : 1 ≤ c) (hc2 : c < UINT64_MOD) (h : hashmap_init c hash equal true true = some m) :
    WF m ∧ Placed m ∧ nodes m = [] ∧ m.hash = hash ∧ m.equal = equal := by
  simp only [hashmap_init, Bool.not_true, Bool.false_eq_true, if_false, Option.some.injEq] at h
  subst h
  have hn : nodes (hashmap_t.mk (List.replicate c []) 0 c hash equal :
      hashmap_t K V) = [] := by
    simp [nodes]
  refine ⟨⟨hc1, hc2, by simp, by rw [hn]; rfl, ?_⟩, ?_, hn, rfl, rfl⟩
  · show (0 : Int) ≤ INT_MAX
    decide
  intro i it hit
  have := chain_sublist_nodes _ i it hit
  rw [hn] at this
  cases this

theorem reachable_wf (m : hashmap_t K V) (h : Reachable m) : WF m ∧ Placed m := by
  induction h with
  | init c hash equal m hc1 hc2 hi =>
    obtain ⟨h1, h2, _⟩ := hashmap_init_wf c hash equal m hc1 hc2 hi
    exact ⟨h1, h2⟩
  | add m p growOk nodeOk b m1 _ ha ih =>
    obtain ⟨h1, h2, _⟩ := hashmap_add_inv m ih.1 p growOk nodeOk b m1 ha
    exact ⟨h1, h2 ih.2⟩
  | remove m k r m1 _ hr ih =>
    obtain ⟨h1, h2, _⟩ := hashmap_remove_inv m k ih.1 r m1 hr
    exact ⟨h1, h2 ih.2⟩

/-! ## What `hashmap_get` computes, and chains after a call -/

theorem hashmap_get_eq (m : hashmap_t K V) (hwf : WF m) (k : K) :
    hashmap_get (some m) k = .ok (get_walk m.equal k (chain m (m.hash k % m.capacity))) := by
  have hcap : m.capacity ≠ 0 := by have := hwf.capacity_pos; omega
  have hlt : m.hash k % m.capacity < m.buckets.length := by
    rw [hwf.length_buckets]; exact Nat.mod_lt _ (by omega)
  simp only [hashmap_get, hcap, if_false, getElem?_eq_some_chain m _ hlt]

theorem get_walk_none (equal : K → K → Bool) (k : K) (ch : List (hashmap_node_t K V))
    (h : ∀ x ∈ ch, equal x.pair.key k = false) : get_walk equal k ch = none := by
  induction ch with
  | nil => rfl
  | cons it next ih =>
    have h1 : equal it.pair.key k = false := h it (by simp)
    simp only [get_walk, h1]
    exact ih (fun x hx => h x (by simp [hx]))

theorem chain_link_front (m : hashmap_t K V) (hwf : WF m) (p : hashmap_pair_t K V) (j : Nat) :
    chain (link_front m p) j =
      if j = m.hash p.key % m.capacity then
        { pair := p, hash := m.hash p.key % m.capacity } :: chain m (m.hash p.key % m.capacity)
      else chain m j := by
  have hlt : m.hash p.key % m.capacity < m.buckets.length := by
    rw [hwf.length_buckets]; exact Nat.mod_lt _ hwf.capacity_pos
  unfold link_front
  exact chain_set m _ j _ hlt _

theorem chain_unlink (m : hashmap_t K V) (hwf : WF m) (h : Nat) (hlt : h < m.capacity)
    (rest : List (hashmap_node_t K V)) (j : Nat) :
    chain (unlink m h rest) j = if j = h then rest else chain m j := by
  have hlt2 : h < m.buckets.length := by rw [hwf.length_buckets]; exact hlt
  unfold unlink
  exact chain_set m _ j _ hlt2 _

/-! ## Allocation failures -/

theorem add_entry_true_ne_false (m : hashmap_t K V) (p : hashmap_pair_t K V)
    (r : Option (hashmap_t K V)) (h : add_entry m p true = .ok (false, r)) : False := by
  simp only [add_entry, Bool.not_true, Bool.false_eq_true, if_false] at h
  split at h
  · cases h
  · split at h
    · cases h
    · split at h
      · cases h
      · simp at h

theorem rehash_true_ne_false (m : hashmap_t K V) (C : Nat) (m1 : hashmap_t K V)
    (h : rehash m C true = .ok (false, m1)) : False := by
  simp only [rehash, Bool.not_true, Bool.false_eq_true, if_false] at h
  split at h
  · cases h
  · simp at h

/-! ## What `hashmap_free` computes, and the pairs of a built table -/

theorem free_chain_eq {σ : Type} (free_pair : hashmap_pair_t K V → σ → σ)
    (ch : List (hashmap_node_t K V)) (state : σ) :
    free_chain free_pair ch state = ch.foldl (fun s it => free_pair it.pair s) state := by
  induction ch generalizing state with
  | nil => rfl
  | cons it next ih => simp only [free_chain, List.foldl_cons]; exact ih _

theorem free_loop_eq {σ : Type} (buckets : List (List (hashmap_node_t K V)))
    (free_pair : hashmap_pair_t K V → σ → σ) :
    ∀ (n i : Nat) (state : σ), i + n ≤ buckets.length →
      free_loop buckets free_pair n i state =
        .ok ((((buckets.drop i).take n).flatten).foldl (fun s it => free_pair it.pair s) state) := by
  intro n
  induction n with
  | zero => intro i state _; simp [free_loop]
  | succ n ih =>
    intro i state hin
    have hi : i < buckets.length := by omega
    have hdrop : (buckets.drop i).take (n + 1) = buckets[i] :: (buckets.drop (i + 1)).take n := by
      rw [List.drop_eq_getElem_cons hi, List.take_succ_cons]
    simp only [free_loop, List.getElem?_eq_getElem hi]
    rw [ih (i + 1) _ (by omega), hdrop, free_chain_eq]
    simp [List.foldl_append]

theorem hashmap_free_eq {σ : Type} (m : hashmap_t K V) (hlen : m.buckets.length = m.capacity)
    (free_pair : hashmap_pair_t K V → σ → σ) (state : σ) :
    hashmap_free m free_pair state =
      .ok ((pairs m).foldl (fun s p => free_pair p s) state) := by
  have hall : (m.buckets.drop 0).take m.capacity = m.buckets := by
    rw [List.drop_zero, ← hlen, List.take_length]
  rw [hashmap_free, free_loop_eq m.buckets free_pair m.capacity 0 state (by omega), hall]
  rw [pairs, List.foldl_map]
  rfl

theorem foldl_snoc_eq {α : Type} (l acc : List α) :
    l.foldl (fun s p => s ++ [p]) acc = acc ++ l := by
  induction l generalizing acc with
  | nil => simp
  | cons a l ih => simp [ih]

theorem built_reachable [DecidableEq K] [DecidableEq V] (m : hashmap_t K V)
    (live : Multiset (hashmap_pair_t K V)) (h : Built m live) : Reachable m := by
  induction h with
  | init c hash equal m hc1 hc2 hi => exact Reachable.init c hash equal m hc1 hc2 hi
  | add_ok m live p growOk nodeOk m1 _ ha ih => exact Reachable.add m p growOk nodeOk true m1 ih ha
  | add_failed m live p growOk nodeOk m1 _ ha ih =>
    exact Reachable.add m p growOk nodeOk false m1 ih ha
  | remove_found m live k p m1 _ hr ih => exact Reachable.remove m k (some p) m1 ih hr
  | remove_missing m live k m1 _ hr ih => exact Reachable.remove m k none m1 ih hr

theorem built_pairs [DecidableEq K] [DecidableEq V] (m : hashmap_t K V)
    (live : Multiset (hashmap_pair_t K V)) (h : Built m live) :
    (↑(pairs m) : Multiset (hashmap_pair_t K V)) = live := by
  induction h with
  | init c hash equal m hc1 hc2 hi =>
    obtain ⟨_, _, h3, _⟩ := hashmap_init_wf c hash equal m hc1 hc2 hi
    simp [pairs, h3]
  | add_ok m live p growOk nodeOk m1 hb ha ih =>
    obtain ⟨_, _, _, _, hp⟩ :=
      hashmap_add_inv m (reachable_wf m (built_reachable m live hb)).1 p growOk nodeOk true m1 ha
    rw [if_pos rfl] at hp
    rw [Multiset.coe_eq_coe.mpr hp, ← ih]
    rfl
  | add_failed m live p growOk nodeOk m1 hb ha ih =>
    obtain ⟨_, _, _, _, hp⟩ :=
      hashmap_add_inv m (reachable_wf m (built_reachable m live hb)).1 p growOk nodeOk false m1 ha
    rw [← ih]
    exact Multiset.coe_eq_coe.mpr (by simpa using hp)
  | remove_found m live k p m1 hb hr ih =>
    obtain ⟨_, _, _, _, hp⟩ :=
      hashmap_remove_inv m k (reachable_wf m (built_reachable m live hb)).1 (some p) m1 hr
    have h1 : (↑(pairs m) : Multiset (hashmap_pair_t K V)) = p ::ₘ ↑(pairs m1) :=
      Multiset.coe_eq_coe.mpr hp
    rw [← ih, h1, Multiset.erase_cons_head]
  | remove_missing m live k m1 hb hr ih =>
    obtain ⟨_, _, _, _, hp⟩ :=
      hashmap_remove_inv m k (reachable_wf m (built_reachable m live hb)).1 none m1 hr
    rw [← ih]
    exact Multiset.coe_eq_coe.mpr hp.symm

/-! ## The example tables -/

theorem int_equiv : EquivHash int_hash int_equal where
  refl := by intro a; simp [int_equal]
  symm := by intro a b h; simp only [int_equal, beq_iff_eq] at h ⊢; exact h.symm
  trans := by intro a b c h1 h2; simp only [int_equal, beq_iff_eq] at h1 h2 ⊢; exact h1.trans h2
  hash_eq := by intro a b h; simp only [int_equal, beq_iff_eq] at h; rw [h]

theorem table_a_wf : WF table_a := ⟨by decide, by decide, rfl, rfl, by decide⟩

theorem table_ab_wf : WF table_ab := ⟨by decide, by decide, rfl, rfl, by decide⟩

theorem table_chain_wf : WF table_chain := ⟨by decide, by decide, rfl, rfl, by decide⟩

theorem table_ab_reachable : Reachable table_ab :=
  Reachable.add table_a ⟨2, "b"⟩ true true true table_ab
    (Reachable.add table_empty ⟨1, "a"⟩ true true true table_a
      (Reachable.init 1 int_hash int_equal table_empty (by decide) (by decide) rfl) rfl) rfl

theorem table_two_b_reachable : Reachable table_two_b :=
  Reachable.add table_two_empty ⟨2, "b"⟩ true true true table_two_b
    (Reachable.init 2 int_hash int_equal table_two_empty (by decide) (by decide) rfl) rfl

theorem table_ab_built : Built table_ab {⟨1, "a"⟩, ⟨2, "b"⟩} := by
  have h := Built.add_ok table_a _ ⟨2, "b"⟩ true true table_ab
    (Built.add_ok table_empty _ ⟨1, "a"⟩ true true table_a
      (Built.init 1 int_hash int_equal table_empty (by decide) (by decide) rfl) rfl) rfl
  have e : (⟨2, "b"⟩ ::ₘ ⟨1, "a"⟩ ::ₘ (0 : Multiset (hashmap_pair_t Nat String))) =
      {⟨1, "a"⟩, ⟨2, "b"⟩} := by decide
  rw [← e]; exact h

/-! ## The claims -/

/-- Claim C1, on the code: it fails.  With capacity 1, the identity hash and
integer equality, adding `(1, "a")` and then `(2, "b")` (distinct keys, every
allocation succeeding) grows the table to capacity 2 and leaves both nodes in
bucket 0, because each node caches `hash % capacity` of the time of its
insertion and `rehash` places it by that cached value; `hashmap_get` of key 1
then looks in bucket `1 % 2 = 1` and returns null instead of `(1, "a")`. -/
theorem get_misses_key_after_growth :
    EquivHash int_hash int_equal ∧ int_equal 1 2 = false ∧
    add_all (hashmap_init 1 int_hash int_equal true true) [⟨1, "a"⟩, ⟨2, "b"⟩] =
      .ok (some table_ab) ∧
    hashmap_get (some table_ab) 1 = .ok none :=
  ⟨int_equiv, rfl, rfl, rfl⟩

/-- Claim C2, on the code: the worked example fails.  After
`hashmap_init(1, identity, int_eq)` and the adds of `(1, "a")`, `(2, "b")`,
`(3, "c")` the table has capacity 4 with the keys 1 and 2 in bucket 0 and the
key 3 in bucket 3; `hashmap_get` of key 2 looks in the empty bucket 2 and
returns null, and `hashmap_remove` of key 1 finds the empty bucket 1 and
dereferences the null pointer. -/
theorem worked_example_diverges :
    add_all (hashmap_init 1 int_hash int_equal true true)
      [⟨1, "a"⟩, ⟨2, "b"⟩, ⟨3, "c"⟩] = .ok (some table_abc) ∧
    hashmap_get (some table_abc) 2 = .ok none ∧
    hashmap_remove (some table_abc) 1 = .error .nullDeref :=
  ⟨rfl, rfl, rfl⟩

/-- Claim C3, on the code: it fails.  The table reached from
`hashmap_init(2, identity, int_eq)` by adding `(2, "b")` is not empty and
stores no key equal to 1; `hashmap_remove` of key 1 finds bucket `1 % 2 = 1`
empty and executes `it = it -> next` on the null pointer instead of returning
null. -/
theorem remove_missing_key_faults :
    Reachable table_two_b ∧
    (∀ it ∈ nodes table_two_b, table_two_b.equal 1 it.pair.key = false) ∧
    hashmap_remove (some table_two_b) 1 = .error .nullDeref :=
  ⟨table_two_b_reachable, by decide, rfl⟩

/-- Claim C4: on a well-formed table whose equality function is an equivalence
consistent with the hash and which holds no node whose key equals the key of
`p`, after a successful `hashmap_add` of `p` (with or without growth),
`hashmap_remove` of that key returns `p`, and `hashmap_get` of that key on the
table it leaves returns null. -/
theorem add_remove_get (m : hashmap_t K V) (hwf : WF m) (heq : EquivHash m.hash m.equal)
    (p : hashmap_pair_t K V) (hno : ∀ it ∈ nodes m, m.equal it.pair.key p.key = false)
    (growOk nodeOk : Bool) (m1 : hashmap_t K V)
    (hadd : hashmap_add (some m) (some p) growOk nodeOk = .ok (true, some m1)) :
    ∃ m2, hashmap_remove (some m1) p.key = .ok (some p, some m2) ∧
      hashmap_get (some m2) p.key = .ok none := by
  rcases hashmap_add_elim m hwf p growOk nodeOk true (some m1) hadd with
    ⟨hb, _⟩ | ⟨mg, hg, he⟩
  · cases hb
  obtain ⟨g1, g2, _, g4, g5, _, _⟩ := add_grow_elim m hwf growOk true mg hg
  rcases add_entry_elim mg g1 p nodeOk true (some m1) he with ⟨_, _, hsz, h1⟩ | ⟨hb, _⟩
  swap
  · cases hb
  simp only [Option.some.injEq] at h1
  subst h1
  obtain ⟨w1, _⟩ := add_entry_wf mg p g1 hsz
  have hlt : mg.hash p.key % mg.capacity < mg.capacity := Nat.mod_lt _ g1.capacity_pos
  have hch : chain (link_front mg p) ((link_front mg p).hash p.key % (link_front mg p).capacity)
      = [] ++ ({ pair := p, hash := mg.hash p.key % mg.capacity } : hashmap_node_t K V) ::
        chain mg (mg.hash p.key % mg.capacity) := by
    show chain (link_front mg p) (mg.hash p.key % mg.capacity) = _
    rw [chain_link_front mg g1 p, if_pos rfl]; rfl
  have hrem := hashmap_remove_found (link_front mg p) p.key w1 [] _ _ hch (by simp)
    (by show mg.equal p.key p.key = true; rw [g5]; exact heq.refl _)
  refine ⟨_, hrem, ?_⟩
  have hlt1 : mg.hash p.key % mg.capacity < (link_front mg p).capacity := hlt
  have w2 : WF (unlink (link_front mg p)
      ((link_front mg p).hash p.key % (link_front mg p).capacity)
      ([] ++ chain mg (mg.hash p.key % mg.capacity))) :=
    (unlink_wf (link_front mg p) w1 _ hlt1 [] _ _ hch).1
  rw [hashmap_get_eq _ w2]
  congr 1
  apply get_walk_none
  intro x hx
  have hx2 : x ∈ chain mg (mg.hash p.key % mg.capacity) := by
    have e := chain_unlink (link_front mg p) w1 (mg.hash p.key % mg.capacity) hlt1
      ([] ++ chain mg (mg.hash p.key % mg.capacity)) (mg.hash p.key % mg.capacity)
    rw [if_pos rfl] at e
    have hx3 : x ∈ chain (unlink (link_front mg p) (mg.hash p.key % mg.capacity)
        ([] ++ chain mg (mg.hash p.key % mg.capacity))) (mg.hash p.key % mg.capacity) := hx
    rw [e] at hx3
    simpa using hx3
  have hx4 : x ∈ nodes m := g2.subset (chain_sublist_nodes mg _ x hx2)
  show mg.equal x.pair.key p.key = false
  rw [g5]
  exact hno x hx4

theorem add_remove_get_witness :
    WF table_a ∧ EquivHash table_a.hash table_a.equal ∧
    (∀ it ∈ nodes table_a, table_a.equal it.pair.key 2 = false) ∧
    hashmap_add (some table_a) (some ⟨2, "b"⟩) true true = .ok (true, some table_ab) ∧
    ∃ m2, hashmap_remove (some table_ab) 2 = .ok (some ⟨2, "b"⟩, some m2) ∧
      hashmap_get (some m2) 2 = .ok none :=
  ⟨table_a_wf, int_equiv, by decide, rfl,
    add_remove_get table_a table_a_wf int_equiv ⟨2, "b"⟩ (by decide) true true table_ab rfl⟩

/-- Claim C5: on a well-formed table whose bucket `hash(k) % capacity` holds a
node with a key equal to `k`, the chain of that bucket splits as
`pre ++ it :: post` with `it` the first such node, and `hashmap_remove`
returns the pair of `it` and leaves a table with `size` one less, the same
capacity and bucket array length, the chain `pre ++ post` in that bucket, and
every other bucket as it was; `pre` is empty when the match is the head. -/
theorem remove_unlinks_first_match (m : hashmap_t K V) (hwf : WF m) (k : K)
    (hex : ∃ x ∈ chain m (m.hash k % m.capacity), m.equal k x.pair.key = true) :
    ∃ pre it post m1,
      chain m (m.hash k % m.capacity) = pre ++ it :: post ∧
      (∀ x ∈ pre, m.equal k x.pair.key = false) ∧ m.equal k it.pair.key = true ∧
      hashmap_remove (some m) k = .ok (some it.pair, some m1) ∧
      m1.size = m.size - 1 ∧ m1.capacity = m.capacity ∧
      m1.buckets.length = m.buckets.length ∧
      chain m1 (m.hash k % m.capacity) = pre ++ post ∧
      ∀ j, j ≠ m.hash k % m.capacity → chain m1 j = chain m j := by
  have hlt : m.hash k % m.capacity < m.capacity := Nat.mod_lt _ hwf.capacity_pos
  rcases chain_first_match m.equal k (chain m (m.hash k % m.capacity)) with
    hno | ⟨pre, it, post, h1, h2, h3⟩
  · obtain ⟨x, hx, hxe⟩ := hex
    rw [hno x hx] at hxe
    cases hxe
  · refine ⟨pre, it, post, _, h1, h2, h3, hashmap_remove_found m k hwf pre it post h1 h2 h3,
      rfl, rfl, by simp [unlink], ?_, ?_⟩
    · rw [chain_unlink m hwf _ hlt, if_pos rfl]
    · intro j hj
      rw [chain_unlink m hwf _ hlt, if_neg hj]

theorem remove_unlinks_first_match_witness :
    WF table_chain ∧
    (∃ x ∈ chain table_chain (table_chain.hash 0 % table_chain.capacity),
      table_chain.equal 0 x.pair.key = true) ∧
    ∃ pre it post m1,
      chain table_chain (table_chain.hash 0 % table_chain.capacity) = pre ++ it :: post ∧
      (∀ x ∈ pre, table_chain.equal 0 x.pair.key = false) ∧
      table_chain.equal 0 it.pair.key = true ∧
      hashmap_remove (some table_chain) 0 = .ok (some it.pair, some m1) ∧
      m1.size = table_chain.size - 1 ∧ m1.capacity = table_chain.capacity ∧
      m1.buckets.length = table_chain.buckets.length ∧
      chain m1 (table_chain.hash 0 % table_chain.capacity) = pre ++ post ∧
      ∀ j, j ≠ table_chain.hash 0 % table_chain.capacity → chain m1 j = chain table_chain j :=
  ⟨table_chain_wf, ⟨⟨⟨0, "x"⟩, 0⟩, by decide, rfl⟩,
    remove_unlinks_first_match table_chain table_chain_wf 0
      ⟨⟨⟨0, "x"⟩, 0⟩, by decide, rfl⟩⟩

/-- Claim C6: when `hashmap_add` of `p` succeeds on a well-formed table, `size`
is one more, the growth step has left a table `mg` whose capacity is the
capacity after the call, the chain of bucket `hash(p.key) % capacity` (that
capacity) is the new node of `p` followed by the chain that bucket has in
`mg`, every other chain is the one of `mg`, and the stored pairs are, as a
multiset, the old ones plus `p`: nothing is dropped, replaced or updated,
whatever keys are already stored. -/
theorem add_links_in_front (m : hashmap_t K V) (hwf : WF m) (p : hashmap_pair_t K V)
    (growOk nodeOk : Bool) (m1 : hashmap_t K V)
    (hadd : hashmap_add (some m) (some p) growOk nodeOk = .ok (true, some m1)) :
    m1.size = m.size + 1 ∧
    (∃ mg, add_grow m growOk = .ok (true, mg) ∧ m1.capacity = mg.capacity ∧
      chain m1 (m.hash p.key % m1.capacity) =
        { pair := p, hash := m.hash p.key % m1.capacity } ::
          chain mg (m.hash p.key % m1.capacity) ∧
      ∀ j, j ≠ m.hash p.key % m1.capacity → chain m1 j = chain mg j) ∧
    (↑(pairs m1) : Multiset (hashmap_pair_t K V)) = p ::ₘ ↑(pairs m) := by
  rcases hashmap_add_elim m hwf p growOk nodeOk true (some m1) hadd with
    ⟨hb, _⟩ | ⟨mg, hg, he⟩
  · cases hb
  obtain ⟨g1, _, g3, g4, _, _, _⟩ := add_grow_elim m hwf growOk true mg hg
  rcases add_entry_elim mg g1 p nodeOk true (some m1) he with ⟨_, _, hsz, h1⟩ | ⟨hb, _⟩
  swap
  · cases hb
  simp only [Option.some.injEq] at h1
  subst h1
  obtain ⟨_, _, _, _, hperm⟩ := hashmap_add_inv m hwf p growOk nodeOk true _ hadd
  refine ⟨by show mg.size + 1 = m.size + 1; rw [g3], ⟨mg, hg, rfl, ?_, ?_⟩, ?_⟩
  · show chain (link_front mg p) (m.hash p.key % mg.capacity) = _
    rw [chain_link_front mg g1 p, g4, if_pos rfl]; rfl
  · intro j hj
    have hj1 : j ≠ m.hash p.key % mg.capacity := hj
    rw [chain_link_front mg g1 p, g4, if_neg hj1]
  · rw [if_pos rfl] at hperm
    exact Multiset.coe_eq_coe.mpr hperm

theorem add_links_in_front_witness :
    WF table_a ∧
    hashmap_add (some table_a) (some ⟨2, "b"⟩) true true = .ok (true, some table_ab) ∧
    table_ab.size = table_a.size + 1 ∧
    (∃ mg, add_grow table_a true = .ok (true, mg) ∧ table_ab.capacity = mg.capacity ∧
      chain table_ab (table_a.hash 2 % table_ab.capacity) =
        { pair := ⟨2, "b"⟩, hash := table_a.hash 2 % table_ab.capacity } ::
          chain mg (table_a.hash 2 % table_ab.capacity) ∧
      ∀ j, j ≠ table_a.hash 2 % table_ab.capacity → chain table_ab j = chain mg j) ∧
    (↑(pairs table_ab) : Multiset (hashmap_pair_t Nat String)) = ⟨2, "b"⟩ ::ₘ ↑(pairs table_a) :=
  ⟨table_a_wf, rfl, add_links_in_front table_a table_a_wf ⟨2, "b"⟩ true true table_ab rfl⟩

/-- Claim C7: on a well-formed table the test
`(double)size / capacity >= .75` of `hashmap_add`, computed in IEEE double
arithmetic, holds exactly when `4 * size >= 3 * capacity`.  When it holds the
call is `rehash` to `2 * capacity` (the product does not wrap around) followed
by the insertion; when it fails the call is the insertion alone.  So after a
call that returns, the capacity is exactly twice the old one when the test
held and the allocation succeeded, and is unchanged otherwise. -/
theorem add_grows_at_three_quarters (m : hashmap_t K V) (hwf : WF m) (p : hashmap_pair_t K V)
    (growOk nodeOk : Bool) :
    (load_factor_reached m.size m.capacity = true ↔ 3 * (m.capacity : Int) ≤ 4 * m.size) ∧
    (3 * (m.capacity : Int) ≤ 4 * m.size →
      hashmap_add (some m) (some p) growOk nodeOk =
        match rehash m (2 * m.capacity) growOk with
        | .error f => .error f
        | .ok (false, m1) => .ok (false, some m1)
        | .ok (true, m1) => add_entry m1 p nodeOk) ∧
    (¬ 3 * (m.capacity : Int) ≤ 4 * m.size →
      hashmap_add (some m) (some p) growOk nodeOk = add_entry m p nodeOk) ∧
    (∀ b m1, hashmap_add (some m) (some p) growOk nodeOk = .ok (b, some m1) →
      m1.capacity =
        if 3 * (m.capacity : Int) ≤ 4 * m.size ∧ growOk = true then 2 * m.capacity
        else m.capacity) := by
  refine ⟨load_factor_reached_iff m.size m.capacity hwf.size_le hwf.capacity_pos
    hwf.capacity_lt, ?_, ?_, ?_⟩
  · intro h
    rw [hashmap_add_eq, (add_grow_of_reached m hwf growOk h).1]
  · intro h
    rw [hashmap_add_eq, add_grow_of_not_reached m hwf growOk h]
  · intro b m1 hadd
    have hcap : ∀ (mg : hashmap_t K V) (b1 : Bool) (o : Option (hashmap_t K V)), WF mg →
        add_entry mg p nodeOk = .ok (b1, o) → o = some m1 → m1.capacity = mg.capacity := by
      intro mg b1 o hmg he ho
      subst ho
      rcases add_entry_elim mg hmg p nodeOk b1 (some m1) he with ⟨_, _, _, h1⟩ | ⟨_, _, h1⟩ <;>
      · simp only [Option.some.injEq] at h1
        subst h1
        rfl
    by_cases h : 3 * (m.capacity : Int) ≤ 4 * m.size
    · obtain ⟨h1, h2⟩ := add_grow_of_reached m hwf growOk h
      rw [hashmap_add_eq, h1] at hadd
      cases growOk with
      | false =>
        rw [rehash_failed] at hadd
        simp only [Except.ok.injEq, Prod.mk.injEq, Option.some.injEq] at hadd
        rw [← hadd.2]
        simp
      | true =>
        have hcp := hwf.capacity_pos
        obtain ⟨bs, g1, g2, _, g4⟩ := rehash_ok m (2 * m.capacity) (by omega) hwf.length_buckets
        rw [g1] at hadd
        have := hcap _ b (some m1) (rehash_wf m hwf _ (by omega) h2 bs g2 g4) hadd rfl
        rw [this]
        simp [h]
    · rw [hashmap_add_eq, add_grow_of_not_reached m hwf growOk h] at hadd
      rw [hcap m b (some m1) hwf hadd rfl]
      simp [h]

theorem add_grows_at_three_quarters_witness :
    WF table_a ∧
    (load_factor_reached table_a.size table_a.capacity = true ↔
      3 * (table_a.capacity : Int) ≤ 4 * table_a.size) ∧
    (3 * (table_a.capacity : Int) ≤ 4 * table_a.size →
      hashmap_add (some table_a) (some ⟨2, "b"⟩) true true =
        match rehash table_a (2 * table_a.capacity) true with
        | .error f => .error f
        | .ok (false, m1) => .ok (false, some m1)
        | .ok (true, m1) => add_entry m1 ⟨2, "b"⟩ true) ∧
    (¬ 3 * (table_a.capacity : Int) ≤ 4 * table_a.size →
      hashmap_add (some table_a) (some ⟨2, "b"⟩) true true = add_entry table_a ⟨2, "b"⟩ true) ∧
    (∀ b m1, hashmap_add (some table_a) (some ⟨2, "b"⟩) true true = .ok (b, some m1) →
      m1.capacity =
        if 3 * (table_a.capacity : Int) ≤ 4 * table_a.size ∧ true = true then
          2 * table_a.capacity
        else table_a.capacity) :=
  ⟨table_a_wf, add_grows_at_three_quarters table_a table_a_wf ⟨2, "b"⟩ true true⟩

/-- Claim C8: with the allocation outcomes as inputs, when the growth test
of `hashmap_add` holds and the allocation inside `rehash` fails, the call
returns `false` and leaves the very same table; and a call on non-null
arguments returns `false` only when the table had to grow and the growth
allocation failed, or the node allocation failed. -/
theorem add_fails_only_on_allocation (m : hashmap_t K V) (p : hashmap_pair_t K V) :
    (load_factor_reached m.size m.capacity = true →
      ∀ nodeOk, hashmap_add (some m) (some p) false nodeOk = .ok (false, some m)) ∧
    (∀ growOk nodeOk r, hashmap_add (some m) (some p) growOk nodeOk = .ok (false, r) →
      (load_factor_reached m.size m.capacity = true ∧ growOk = false) ∨ nodeOk = false) := by
  constructor
  · intro h nodeOk
    rw [hashmap_add_eq]
    simp only [add_grow, h, if_true, rehash_failed]
  · intro growOk nodeOk r h
    rw [hashmap_add_eq] at h
    cases hg : add_grow m growOk with
    | error f => rw [hg] at h; cases h
    | ok res =>
      obtain ⟨bg, mg⟩ := res
      rw [hg] at h
      cases bg with
      | true =>
        cases nodeOk with
        | false => exact Or.inr rfl
        | true => exact (add_entry_true_ne_false mg p r h).elim
      | false =>
        left
        cases hl : load_factor_reached m.size m.capacity with
        | false => simp [add_grow, hl] at hg
        | true =>
          refine ⟨rfl, ?_⟩
          cases growOk with
          | false => rfl
          | true =>
            simp only [add_grow, hl, if_true] at hg
            exact (rehash_true_ne_false m _ mg hg).elim

theorem add_fails_only_on_allocation_witness :
    load_factor_reached table_a.size table_a.capacity = true ∧
    hashmap_add (some table_a) (some ⟨2, "b"⟩) false true = .ok (false, some table_a) ∧
    ((load_factor_reached table_a.size table_a.capacity = true ∧ false = false) ∨
      true = false) :=
  ⟨by decide, (add_fails_only_on_allocation table_a ⟨2, "b"⟩).1 (by decide) true,
    (add_fails_only_on_allocation table_a ⟨2, "b"⟩).2 false true (some table_a) rfl⟩

/-- Claim C9: on a well-formed table `hashmap_free` calls `free_pair` once for
every stored node, with the pair of that node, bucket by bucket and front to
back in each chain: its effect is the fold of the callback over the stored
pairs, and a callback that records its argument records exactly the list of
stored pairs.  For a table built by adds and removes these pairs are, as a
multiset, the pairs added and not removed since. -/
theorem free_calls_back_once_per_pair [DecidableEq K] [DecidableEq V] (m : hashmap_t K V)
    (hwf : WF m) :
    (∀ (σ : Type) (free_pair : hashmap_pair_t K V → σ → σ) (state : σ),
      hashmap_free m free_pair state = .ok ((pairs m).foldl (fun s p => free_pair p s) state)) ∧
    hashmap_free m (fun p calls => calls ++ [p]) [] = .ok (pairs m) ∧
    (∀ live, Built m live → (↑(pairs m) : Multiset (hashmap_pair_t K V)) = live) := by
  refine ⟨fun σ f s => hashmap_free_eq m hwf.length_buckets f s, ?_, fun live h =>
    built_pairs m live h⟩
  rw [hashmap_free_eq m hwf.length_buckets, foldl_snoc_eq]
  rfl

theorem free_calls_back_once_per_pair_witness :
    WF table_ab ∧ Built table_ab {⟨1, "a"⟩, ⟨2, "b"⟩} ∧
    hashmap_free table_ab (fun p calls => calls ++ [p]) [] = .ok [⟨2, "b"⟩, ⟨1, "a"⟩] ∧
    (↑(pairs table_ab) : Multiset (hashmap_pair_t Nat String)) = {⟨1, "a"⟩, ⟨2, "b"⟩} :=
  ⟨table_ab_wf, table_ab_built,
    (free_calls_back_once_per_pair table_ab table_ab_wf).2.1,
    (free_calls_back_once_per_pair table_ab table_ab_wf).2.2 _ table_ab_built⟩

/-- Claim C10: in every table reachable from `hashmap_init` (capacity at least
1) by calls of `hashmap_add` and `hashmap_remove`, every node of bucket `i`
has `hash % capacity = i` for its cached hash and the current capacity; and
on a table whose bucket array has `capacity` slots, `rehash` to any capacity
`C >= 1` with a succeeding allocation returns `true` and leaves a table of
capacity `C` with the same property. -/
theorem bucket_placement (m : hashmap_t K V) :
    (Reachable m → ∀ i it, it ∈ chain m i → it.hash % m.capacity = i) ∧
    (m.buckets.length = m.capacity → ∀ C, 1 ≤ C →
      ∃ m1, rehash m C true = .ok (true, m1) ∧ m1.capacity = C ∧
        ∀ i it, it ∈ chain m1 i → it.hash % m1.capacity = i) := by
  constructor
  · intro h; exact (reachable_wf m h).2
  · intro hlen C hC
    obtain ⟨bs, g1, _, g3, _⟩ := rehash_ok m C hC hlen
    exact ⟨_, g1, rfl, rehash_placed m C bs g3⟩

theorem bucket_placement_witness :
    Reachable table_ab ∧ table_ab.buckets.length = table_ab.capacity ∧ 1 ≤ 3 ∧
    (∀ i it, it ∈ chain table_ab i → it.hash % table_ab.capacity = i) ∧
    ∃ m1, rehash table_ab 3 true = .ok (true, m1) ∧ m1.capacity = 3 ∧
      ∀ i it, it ∈ chain m1 i → it.hash % m1.capacity = i :=
  ⟨table_ab_reachable, rfl, by decide, (bucket_placement table_ab).1 table_ab_reachable,
    (bucket_placement table_ab).2 rfl 3 (by decide)⟩

/-! ## The steps of a run of calls -/

/-- The three ways a call of `hashmap_add` on a well-formed table returns:
the table is untouched; the pair is linked without growth; or the table has
grown to twice its capacity and the pair is linked or not. -/
theorem hashmap_add_shape (m : hashmap_t K V) (hwf : WF m) (p : hashmap_pair_t K V)
    (growOk nodeOk b : Bool) (m1 : hashmap_t K V)
    (h : hashmap_add (some m) (some p) growOk nodeOk = .ok (b, some m1)) :
    (b = false ∧ m1 = m) ∨
    (b = true ∧ ¬ 3 * (m.capacity : Int) ≤ 4 * m.size ∧ m.size ≠ INT_MAX ∧
      m1 = link_front m p) ∨
    (3 * (m.capacity : Int) ≤ 4 * m.size ∧ growOk = true ∧
      ∃ mg, add_grow m growOk = .ok (true, mg) ∧ WF mg ∧ mg.capacity = 2 * m.capacity ∧
        mg.size = m.size ∧ (nodes mg).Perm (nodes m) ∧
        ((b = false ∧ m1 = mg) ∨ (b = true ∧ mg.size ≠ INT_MAX ∧ m1 = link_front mg p))) := by
  rcases hashmap_add_elim m hwf p growOk nodeOk b (some m1) h with
    ⟨hb, h1, _, _⟩ | ⟨mg, hg, he⟩
  · simp only [Option.some.injEq] at h1
    exact Or.inl ⟨hb, h1⟩
  · by_cases hr : 3 * (m.capacity : Int) ≤ 4 * m.size
    · right; right
      obtain ⟨h1, h2⟩ := add_grow_of_reached m hwf growOk hr
      have hgo : growOk = true := by
        cases growOk with
        | true => rfl
        | false =>
          rw [h1, rehash_failed] at hg
          simp at hg
      subst hgo
      have hcp := hwf.capacity_pos
      obtain ⟨bs, g1, g2, _, g4⟩ := rehash_ok m (2 * m.capacity) (by omega) hwf.length_buckets
      rw [h1, g1] at hg
      simp only [Except.ok.injEq, Prod.mk.injEq, true_and] at hg
      subst hg
      have wg := rehash_wf m hwf _ (by omega : 1 ≤ 2 * m.capacity) h2 bs g2 g4
      refine ⟨hr, rfl, _, h1.trans g1, wg, rfl, rfl, g4, ?_⟩
      rcases add_entry_elim _ wg p nodeOk b (some m1) he with ⟨hb, _, hsz, e⟩ | ⟨hb, _, e⟩
      · simp only [Option.some.injEq] at e
        exact Or.inr ⟨hb, hsz, e⟩
      · simp only [Option.some.injEq] at e
        exact Or.inl ⟨hb, e⟩
    · rw [add_grow_of_not_reached m hwf growOk hr] at hg
      simp only [Except.ok.injEq, Prod.mk.injEq, true_and] at hg
      subst hg
      rcases add_entry_elim _ hwf p nodeOk b (some m1) he with ⟨hb, _, hsz, e⟩ | ⟨hb, _, e⟩
      · simp only [Option.some.injEq] at e
        exact Or.inr (Or.inl ⟨hb, hr, hsz, e⟩)
      · simp only [Option.some.injEq] at e
        exact Or.inl ⟨hb, e⟩

theorem nodes_link_front (m : hashmap_t K V) (hwf : WF m) (p : hashmap_pair_t K V) :
    (nodes (link_front m p)).Perm
      ({ pair := p, hash := m.hash p.key % m.capacity } :: nodes m) := by
  have hlt : m.hash p.key % m.capacity < m.buckets.length := by
    rw [hwf.length_buckets]; exact Nat.mod_lt _ hwf.capacity_pos
  exact flatten_set_cons_perm m.buckets _ _ _ (getElem?_eq_some_chain m _ hlt)

/-- The capacity after a call of `hashmap_add` that returns is the old one or
twice the old one, and is still a `uint64_t`. -/
theorem hashmap_add_capacity (m : hashmap_t K V) (hwf : WF m) (p : hashmap_pair_t K V)
    (growOk nodeOk b : Bool) (m1 : hashmap_t K V)
    (h : hashmap_add (some m) (some p) growOk nodeOk = .ok (b, some m1)) :
    m1.capacity = m.capacity ∨ m1.capacity = 2 * m.capacity := by
  rcases hashmap_add_shape m hwf p growOk nodeOk b m1 h with
    ⟨_, rfl⟩ | ⟨_, _, _, rfl⟩ | ⟨_, _, mg, _, _, hc, _, _, hm⟩
  · exact Or.inl rfl
  · exact Or.inl rfl
  · rcases hm with ⟨_, rfl⟩ | ⟨_, _, rfl⟩
    · exact Or.inr hc
    · exact Or.inr hc

/-- A call of `hashmap_remove` that returns leaves the capacity and takes no
node in. -/
theorem hashmap_remove_shape (m : hashmap_t K V) (hwf : WF m) (k : K)
    (r : Option (hashmap_pair_t K V)) (m1 : hashmap_t K V)
    (h : hashmap_remove (some m) k = .ok (r, some m1)) :
    m1.capacity = m.capacity ∧ (m1.size = m.size ∨ m1.size = m.size - 1) ∧
      ∀ it ∈ nodes m1, it ∈ nodes m := by
  have hlt : m.hash k % m.capacity < m.capacity := Nat.mod_lt _ hwf.capacity_pos
  rcases hashmap_remove_elim m k hwf r (some m1) h with ⟨_, h1⟩ | ⟨pre, it, post, h1, _, _, _, h5⟩
  · simp only [Option.some.injEq] at h1
    subst h1
    exact ⟨rfl, Or.inl rfl, fun _ hx => hx⟩
  · simp only [Option.some.injEq] at h5
    subst h5
    obtain ⟨_, w2⟩ := unlink_wf m hwf _ hlt pre it post h1
    exact ⟨rfl, Or.inr rfl, fun x hx => w2.symm.subset (List.mem_cons_of_mem _ hx)⟩

theorem added_reachable (c : Nat) (hash : K → Nat) (equal : K → K → Bool) (m : hashmap_t K V)
    (ps : List (hashmap_pair_t K V)) (h : Added c hash equal m ps) : Reachable m := by
  induction h with
  | init m hc1 hc2 hi => exact Reachable.init c hash equal m hc1 hc2 hi
  | add_ok m ps p growOk nodeOk m1 _ ha ih => exact Reachable.add m p growOk nodeOk true m1 ih ha
  | add_failed m ps p growOk nodeOk m1 _ ha ih =>
    exact Reachable.add m p growOk nodeOk false m1 ih ha

/-- The pairs stored after a run of adds are the pairs of the successful
calls; the capacity is at least the initial one and the functions are the
ones given to `hashmap_init`. -/
theorem added_inv (c : Nat) (hash : K → Nat) (equal : K → K → Bool) (m : hashmap_t K V)
    (ps : List (hashmap_pair_t K V)) (h : Added c hash equal m ps) :
    (pairs m).Perm ps ∧ c ≤ m.capacity ∧ m.hash = hash ∧ m.equal = equal := by
  induction h with
  | init m hc1 hc2 hi =>
    obtain ⟨_, _, h3, h4, h5⟩ := hashmap_init_wf c hash equal m hc1 hc2 hi
    refine ⟨by simp [pairs, h3], ?_, h4, h5⟩
    simp only [hashmap_init, Bool.not_true, Bool.false_eq_true, if_false,
      Option.some.injEq] at hi
    rw [← hi]
  | add_ok m ps p growOk nodeOk m1 hb ha ih =>
    have hwf := (reachable_wf m (added_reachable c hash equal m ps hb)).1
    obtain ⟨_, _, h3, h4, hp⟩ := hashmap_add_inv m hwf p growOk nodeOk true m1 ha
    rw [if_pos rfl] at hp
    refine ⟨hp.trans (List.Perm.cons _ ih.1), ?_, h3.trans ih.2.2.1, h4.trans ih.2.2.2⟩
    rcases hashmap_add_capacity m hwf p growOk nodeOk true m1 ha with e | e <;>
    · have := ih.2.1
      omega
  | add_failed m ps p growOk nodeOk m1 hb ha ih =>
    have hwf := (reachable_wf m (added_reachable c hash equal m ps hb)).1
    obtain ⟨_, _, h3, h4, hp⟩ := hashmap_add_inv m hwf p growOk nodeOk false m1 ha
    refine ⟨(by simpa using hp : (pairs m1).Perm (pairs m)).trans ih.1, ?_,
      h3.trans ih.2.2.1, h4.trans ih.2.2.2⟩
    rcases hashmap_add_capacity m hwf p growOk nodeOk false m1 ha with e | e <;>
    · have := ih.2.1
      omega

/-- The load-factor bound survives a call of `hashmap_add`. -/
theorem load_bound_add (m : hashmap_t K V) (hwf : WF m) (p : hashmap_pair_t K V)
    (growOk nodeOk b : Bool) (m1 : hashmap_t K V)
    (h : hashmap_add (some m) (some p) growOk nodeOk = .ok (b, some m1))
    (hb : 4 * m.size < 3 * (m.capacity : Int) + 4) :
    4 * m1.size < 3 * (m1.capacity : Int) + 4 := by
  have hcp := hwf.capacity_pos
  rcases hashmap_add_shape m hwf p growOk nodeOk b m1 h with
    ⟨_, rfl⟩ | ⟨_, hr, _, rfl⟩ | ⟨_, _, mg, _, _, hc, hs, _, hm⟩
  · exact hb
  · show 4 * (m.size + 1) < 3 * (m.capacity : Int) + 4
    omega
  · rcases hm with ⟨_, rfl⟩ | ⟨_, _, rfl⟩
    · rw [hc, hs]; push_cast; omega
    · show 4 * (mg.size + 1) < 3 * (mg.capacity : Int) + 4
      rw [hc, hs]; push_cast
      rcases Nat.eq_or_lt_of_le hcp with e | e
      · rw [← e] at hb ⊢; omega
      · omega

/-- The cached hash of every node of a reachable table is below the capacity. -/
theorem reachable_hash_lt (m : hashmap_t K V) (h : Reachable m) :
    ∀ it ∈ nodes m, it.hash < m.capacity := by
  induction h with
  | init c hash equal m hc1 hc2 hi =>
    obtain ⟨_, _, h3, _⟩ := hashmap_init_wf c hash equal m hc1 hc2 hi
    intro it hit
    rw [h3] at hit
    cases hit
  | add m p growOk nodeOk b m1 hm ha ih =>
    have hwf := (reachable_wf m hm).1
    have hcp := hwf.capacity_pos
    rcases hashmap_add_shape m hwf p growOk nodeOk b m1 ha with
      ⟨_, rfl⟩ | ⟨_, _, _, rfl⟩ | ⟨_, _, mg, _, wg, hc, _, hperm, hm1⟩
    · exact ih
    · intro it hit
      rcases List.mem_cons.mp ((nodes_link_front m hwf p).subset hit) with rfl | h1
      · exact Nat.mod_lt _ hcp
      · exact ih it h1
    · have hg : ∀ it ∈ nodes mg, it.hash < mg.capacity := by
        intro it hit
        have := ih it (hperm.subset hit)
        omega
      rcases hm1 with ⟨_, rfl⟩ | ⟨_, _, rfl⟩
      · exact hg
      · intro it hit
        rcases List.mem_cons.mp ((nodes_link_front mg wg p).subset hit) with rfl | h1
        · exact Nat.mod_lt _ wg.capacity_pos
        · exact hg it h1
  | remove m k r m1 hm hr ih =>
    obtain ⟨h1, _, h3⟩ := hashmap_remove_shape m (reachable_wf m hm).1 k r m1 hr
    intro it hit
    rw [h1]
    exact ih it (h3 it hit)

/-! ## Lookup after adds without growth -/

/-- Filtering all nodes of an array of chains by an index that is constant on
every chain picks one chain. -/
theorem filter_flatten_index {α : Type} (f : α → Nat) (l : List (List α)) :
    ∀ (off j : Nat), (∀ i it, it ∈ l.getD i [] → f it = off + i) →
      l.flatten.filter (fun it => f it = j) = if off ≤ j then l.getD (j - off) [] else [] := by
  induction l with
  | nil => intro off j _; simp
  | cons a l ih =>
    intro off j h
    have ha : ∀ it ∈ a, f it = off := by
      intro it hit
      have := h 0 it (by simpa using hit)
      simpa using this
    have hl : ∀ i it, it ∈ l.getD i [] → f it = (off + 1) + i := by
      intro i it hit
      have := h (i + 1) it (by simpa using hit)
      omega
    rw [List.flatten_cons, List.filter_append, ih (off + 1) j hl]
    rcases Nat.lt_trichotomy j off with hlt | heq | hgt
    · have h1 : a.filter (fun it => f it = j) = [] := by
        apply List.filter_eq_nil_iff.mpr
        intro it hit
        have := ha it hit
        simp only [decide_eq_true_eq]
        omega
      rw [h1, if_neg (by omega), if_neg (by omega)]
      rfl
    · subst heq
      have h1 : a.filter (fun it => f it = j) = a := by
        apply List.filter_eq_self.mpr
        intro it hit
        simp only [decide_eq_true_eq]
        exact ha it hit
      rw [h1, if_neg (by omega), if_pos (Nat.le_refl _)]
      simp
    · have h1 : a.filter (fun it => f it = j) = [] := by
        apply List.filter_eq_nil_iff.mpr
        intro it hit
        have := ha it hit
        simp only [decide_eq_true_eq]
        omega
      obtain ⟨d, hd⟩ : ∃ d, j - off = d + 1 := ⟨j - off - 1, by omega⟩
      have hd2 : j - (off + 1) = d := by omega
      rw [h1, if_pos (by omega), if_pos (by omega), hd, hd2]
      simp

theorem chain_eq_nil_of_nodes (m : hashmap_t K V) (h : nodes m = []) (j : Nat) :
    chain m j = [] := by
  apply List.eq_nil_iff_forall_not_mem.mpr
  intro it hit
  have := chain_sublist_nodes m j it hit
  rw [h] at this
  cases this

/-- Without growth, bucket `j` holds the nodes of the added pairs that hash to
`j`, the most recent first. -/
theorem added_chain_without_growth (c : Nat) (hash : K → Nat) (equal : K → K → Bool)
    (m : hashmap_t K V) (ps : List (hashmap_pair_t K V)) (h : Added c hash equal m ps) :
    m.capacity = c → ∀ j, chain m j =
      (ps.filter (fun p => hash p.key % c = j)).map
        (fun p => ({ pair := p, hash := hash p.key % c } : hashmap_node_t K V)) := by
  induction h with
  | init m hc1 hc2 hi =>
    intro _ j
    obtain ⟨_, _, h3, _⟩ := hashmap_init_wf c hash equal m hc1 hc2 hi
    rw [chain_eq_nil_of_nodes m h3 j]
    rfl
  | add_ok m ps p growOk nodeOk m1 hb ha ih =>
    intro hcap j
    have hwf := (reachable_wf m (added_reachable c hash equal m ps hb)).1
    obtain ⟨_, hle, hh, _⟩ := added_inv c hash equal m ps hb
    have hcp := hwf.capacity_pos
    rcases hashmap_add_shape m hwf p growOk nodeOk true m1 ha with
      ⟨hf, _⟩ | ⟨_, _, _, rfl⟩ | ⟨_, _, mg, _, _, hc, _, _, hm1⟩
    · cases hf
    · have hmc : m.capacity = c := hcap
      rw [chain_link_front m hwf p j, hh, hmc, ih hmc, List.filter_cons]
      by_cases hj : hash p.key % c = j
      · rw [if_pos hj.symm]
        simp [hj, ih hmc j]
      · rw [if_neg (Ne.symm hj)]
        simp [hj, ih hmc j]
    · exfalso
      rcases hm1 with ⟨hf, _⟩ | ⟨_, _, rfl⟩
      · cases hf
      · have : mg.capacity = c := hcap
        omega
  | add_failed m ps p growOk nodeOk m1 hb ha ih =>
    intro hcap j
    have hwf := (reachable_wf m (added_reachable c hash equal m ps hb)).1
    obtain ⟨_, hle, _, _⟩ := added_inv c hash equal m ps hb
    have hcp := hwf.capacity_pos
    rcases hashmap_add_shape m hwf p growOk nodeOk false m1 ha with
      ⟨_, rfl⟩ | ⟨hf, _⟩ | ⟨_, _, mg, _, _, hc, _, _, hm1⟩
    · exact ih hcap j
    · cases hf
    · exfalso
      rcases hm1 with ⟨_, rfl⟩ | ⟨hf, _⟩
      · omega
      · cases hf

theorem get_walk_filter_map (equal : K → K → Bool) (k : K) (q : hashmap_pair_t K V → Bool)
    (g : hashmap_pair_t K V → Nat) (hq : ∀ p, equal p.key k = true → q p = true)
    (ps : List (hashmap_pair_t K V)) :
    get_walk equal k ((ps.filter q).map
      (fun p => ({ pair := p, hash := g p } : hashmap_node_t K V))) =
      most_recent equal k ps := by
  induction ps with
  | nil => rfl
  | cons p ps ih =>
    unfold most_recent at ih ⊢
    by_cases hp : q p = true
    · rw [List.filter_cons, if_pos hp, List.map_cons, List.find?_cons]
      simp only [get_walk]
      by_cases he : equal p.key k = true
      · simp [he]
      · have hf : equal p.key k = false := by simpa using he
        simp only [hf, Bool.false_eq_true, if_false]
        exact ih
    · have he : equal p.key k = false := by
        by_contra hcon
        exact hp (hq p (by simpa using hcon))
      rw [List.filter_cons, if_neg hp, List.find?_cons]
      simp only [he]
      exact ih

theorem get_walk_eq_find (equal : K → K → Bool) (k : K) (ch : List (hashmap_node_t K V)) :
    get_walk equal k ch =
      (ch.find? (fun it => equal it.pair.key k)).map (fun it => it.pair) := by
  induction ch with
  | nil => rfl
  | cons it next ih =>
    simp only [get_walk, List.find?_cons]
    by_cases he : equal it.pair.key k = true
    · simp [he]
    · have hf : equal it.pair.key k = false := by simpa using he
      simp only [hf, Bool.false_eq_true, if_false]
      exact ih

/-! ## When the operations return -/

/-- On a well-formed table `hashmap_get` returns. -/
theorem hashmap_get_total (m : hashmap_t K V) (hwf : WF m) (k : K) :
    ∃ r, hashmap_get (some m) k = .ok r :=
  ⟨_, hashmap_get_eq m hwf k⟩

/-- On a well-formed table `hashmap_add` returns, unless `size` is `INT_MAX`
and both allocations succeed: then `size++` overflows. -/
theorem hashmap_add_total (m : hashmap_t K V) (hwf : WF m) (p : hashmap_pair_t K V)
    (growOk nodeOk : Bool) :
    (∃ b m1, hashmap_add (some m) (some p) growOk nodeOk = .ok (b, some m1)) ∨
      hashmap_add (some m) (some p) growOk nodeOk = .error .intOverflow := by
  rw [hashmap_add_eq]
  have key : ∀ mg : hashmap_t K V, WF mg →
      (∃ b m1, add_entry mg p nodeOk = .ok (b, some m1)) ∨
        add_entry mg p nodeOk = .error .intOverflow := by
    intro mg wg
    cases nodeOk with
    | false => exact Or.inl ⟨_, _, add_entry_failed mg p wg⟩
    | true =>
      by_cases hsz : mg.size = INT_MAX
      · exact Or.inr (add_entry_overflow mg p wg hsz)
      · exact Or.inl ⟨_, _, add_entry_ok mg p wg hsz⟩
  cases growOk with
  | true =>
    obtain ⟨mg, h1, wg, _⟩ := add_grow_ok m hwf
    rw [h1]
    exact key mg wg
  | false =>
    rcases add_grow_failed m hwf with h1 | h1
    · rw [h1]; exact Or.inl ⟨_, _, rfl⟩
    · rw [h1]; exact key m hwf

/-- On a well-formed table `hashmap_remove` returns, unless the table is not
empty and the target bucket is: then it dereferences the null pointer. -/
theorem hashmap_remove_total (m : hashmap_t K V) (hwf : WF m) (k : K) :
    (∃ r m1, hashmap_remove (some m) k = .ok (r, some m1)) ∨
      (m.size ≠ 0 ∧ chain m (m.hash k % m.capacity) = [] ∧
        hashmap_remove (some m) k = .error .nullDeref) := by
  by_cases hsz : m.size = 0
  · exact Or.inl ⟨_, _, hashmap_remove_empty m k hsz⟩
  · by_cases hch : chain m (m.hash k % m.capacity) = []
    · exact Or.inr ⟨hsz, hch, hashmap_remove_null m k hwf hsz hch⟩
    · rcases chain_first_match m.equal k (chain m (m.hash k % m.capacity)) with
        hno | ⟨pre, it, post, h1, h2, h3⟩
      · exact Or.inl ⟨_, _, hashmap_remove_missing m k hwf hch hno⟩
      · exact Or.inl ⟨_, _, hashmap_remove_found m k hwf pre it post h1 h2 h3⟩

/-! ## More facts on the example tables -/

theorem table_a_reachable : Reachable table_a :=
  Reachable.add table_empty ⟨1, "a"⟩ true true true table_a
    (Reachable.init 1 int_hash int_equal table_empty (by decide) (by decide) rfl) rfl

theorem table_abc_reachable : Reachable table_abc :=
  Reachable.add table_ab ⟨3, "c"⟩ true true true table_abc table_ab_reachable rfl

theorem table_a_added : Added 1 int_hash int_equal table_a [⟨1, "a"⟩] :=
  Added.add_ok table_empty _ ⟨1, "a"⟩ true true table_a
    (Added.init table_empty (by decide) (by decide) rfl) rfl

theorem table_ab_added : Added 1 int_hash int_equal table_ab [⟨2, "b"⟩, ⟨1, "a"⟩] :=
  Added.add_ok table_a _ ⟨2, "b"⟩ true true table_ab
    (Added.add_ok table_empty _ ⟨1, "a"⟩ true true table_a
      (Added.init table_empty (by decide) (by decide) rfl) rfl) rfl

theorem table_dup_added :
    Added 1 int_hash int_equal table_dup [⟨3, "c"⟩, ⟨0, "b"⟩, ⟨0, "a"⟩] :=
  Added.add_ok table_dup_ab _ ⟨3, "c"⟩ true true table_dup
    (Added.add_ok table_dup_a _ ⟨0, "b"⟩ true true table_dup_ab
      (Added.add_ok table_empty _ ⟨0, "a"⟩ true true table_dup_a
        (Added.init table_empty (by decide) (by decide) rfl) rfl) rfl) rfl

theorem table_dup_ab_added :
    Added 2 int_hash int_equal table_dup_ab [⟨0, "b"⟩, ⟨0, "a"⟩] :=
  Added.add_ok table_two_a _ ⟨0, "b"⟩ true true table_dup_ab
    (Added.add_ok table_two_empty _ ⟨0, "a"⟩ true true table_two_a
      (Added.init table_two_empty (by decide) (by decide) rfl) rfl) rfl

/-! ## The claims on invariants, rehash and totality -/

/-- Claim C11: in every table reachable from `hashmap_init` by calls of
`hashmap_add` and `hashmap_remove`, whether they succeed or not and whether
the table grows or not, `size` is the number of nodes in all bucket chains;
and after a run of adds alone `size` is the number of calls that returned
`true`. -/
theorem size_counts_nodes (m : hashmap_t K V) :
    (Reachable m → m.size = ((nodes m).length : Int)) ∧
    (∀ c hash equal ps, Added c hash equal m ps → m.size = (ps.length : Int)) := by
  constructor
  · intro h; exact (reachable_wf m h).1.size_eq
  · intro c hash equal ps h
    have hwf := (reachable_wf m (added_reachable c hash equal m ps h)).1
    have hp := (added_inv c hash equal m ps h).1.length_eq
    rw [hwf.size_eq, ← hp]
    simp [pairs]

theorem size_counts_nodes_witness :
    Reachable table_ab ∧ Added 1 int_hash int_equal table_ab [⟨2, "b"⟩, ⟨1, "a"⟩] ∧
    table_ab.size = ((nodes table_ab).length : Int) ∧ table_ab.size = 2 :=
  ⟨table_ab_reachable, table_ab_added, (size_counts_nodes table_ab).1 table_ab_reachable,
    (size_counts_nodes table_ab).2 1 int_hash int_equal _ table_ab_added⟩

/-- Claim C12: in every table reachable from `hashmap_init` with a capacity of
at least 1 by calls of `hashmap_add` and `hashmap_remove`, the capacity is at
least 1 and below `2 ^ 64` (the product `capacity * 2` of the growth step,
taken modulo `2 ^ 64`, never wraps around), the bucket array has exactly
`capacity` slots, a call of `hashmap_add` that returns leaves the capacity as
it was or doubles it, and a call of `hashmap_remove` that returns leaves it
as it was: the capacity never decreases. -/
theorem capacity_positive_and_monotone (m : hashmap_t K V) (h : Reachable m) :
    1 ≤ m.capacity ∧ m.capacity < UINT64_MOD ∧ m.buckets.length = m.capacity ∧
    (∀ p growOk nodeOk b m1,
      hashmap_add (some m) (some p) growOk nodeOk = .ok (b, some m1) →
      m.capacity ≤ m1.capacity ∧ 1 ≤ m1.capacity ∧ m1.buckets.length = m1.capacity) ∧
    (∀ k r m1, hashmap_remove (some m) k = .ok (r, some m1) →
      m1.capacity = m.capacity ∧ m1.buckets.length = m1.capacity) := by
  have hwf := (reachable_wf m h).1
  refine ⟨hwf.capacity_pos, hwf.capacity_lt, hwf.length_buckets, ?_, ?_⟩
  · intro p growOk nodeOk b m1 ha
    have w1 := (reachable_wf m1 (Reachable.add m p growOk nodeOk b m1 h ha)).1
    refine ⟨?_, w1.capacity_pos, w1.length_buckets⟩
    rcases hashmap_add_capacity m hwf p growOk nodeOk b m1 ha with e | e <;> omega
  · intro k r m1 hr
    have w1 := (reachable_wf m1 (Reachable.remove m k r m1 h hr)).1
    exact ⟨(hashmap_remove_shape m hwf k r m1 hr).1, w1.length_buckets⟩

theorem capacity_positive_and_monotone_witness :
    Reachable table_a ∧
    hashmap_add (some table_a) (some ⟨2, "b"⟩) true true = .ok (true, some table_ab) ∧
    1 ≤ table_a.capacity ∧ table_a.capacity ≤ table_ab.capacity ∧
    table_ab.buckets.length = table_ab.capacity :=
  ⟨table_a_reachable, rfl,
    (capacity_positive_and_monotone table_a table_a_reachable).1,
    ((capacity_positive_and_monotone table_a table_a_reachable).2.2.2.1
      ⟨2, "b"⟩ true true true table_ab rfl).1,
    ((capacity_positive_and_monotone table_a table_a_reachable).2.2.2.1
      ⟨2, "b"⟩ true true true table_ab rfl).2.2⟩

/-- Claim C13, on the code: it fails.  The table built by
`hashmap_init(1, identity, int_eq)` and the add of `(1, "a")` holds a node
whose cached hash is `1 % 1 = 0`, not the hash 1 of its key; `rehash` to
capacity 2 leaves that node in bucket `0 % 2 = 0`, while recomputing the hash
of its key gives bucket `1 % 2 = 1`. -/
theorem rehash_by_cached_hash_misplaces :
    Added 1 int_hash int_equal table_a [⟨1, "a"⟩] ∧
    nodes table_a = [⟨⟨1, "a"⟩, 0⟩] ∧
    (⟨⟨1, "a"⟩, 0⟩ : hashmap_node_t Nat String).hash ≠ table_a.hash 1 ∧
    rehash table_a 2 true = .ok (true, table_a_rehashed) ∧
    chain table_a_rehashed 0 = [⟨⟨1, "a"⟩, 0⟩] ∧
    recomputed_bucket table_a.hash 2 ⟨⟨1, "a"⟩, 0⟩ = 1 :=
  ⟨table_a_added, rfl, by decide, rfl, rfl, rfl⟩

/-- Claim C14: on a well-formed table, `rehash` to a capacity `C >= 1` with a
succeeding allocation returns `true` and leaves a table whose nodes (pair and
cached hash) are, as a multiset, the nodes it had (none lost, none
duplicated), with the same `size`, the capacity `C`, a bucket array of `C`
slots, and the same hash and equality functions. -/
theorem rehash_relinks_every_node (m : hashmap_t K V) (hwf : WF m) (C : Nat) (hC : 1 ≤ C) :
    ∃ m1, rehash m C true = .ok (true, m1) ∧
      (↑(nodes m1) : Multiset (hashmap_node_t K V)) = ↑(nodes m) ∧
      m1.size = m.size ∧ m1.capacity = C ∧ m1.buckets.length = C ∧
      m1.hash = m.hash ∧ m1.equal = m.equal := by
  obtain ⟨bs, g1, g2, _, g4⟩ := rehash_ok m C hC hwf.length_buckets
  exact ⟨_, g1, Multiset.coe_eq_coe.mpr g4, rfl, rfl, g2, rfl, rfl⟩

theorem rehash_relinks_every_node_witness :
    WF table_ab ∧ 1 ≤ 3 ∧
    ∃ m1, rehash table_ab 3 true = .ok (true, m1) ∧
      (↑(nodes m1) : Multiset (hashmap_node_t Nat String)) = ↑(nodes table_ab) ∧
      m1.size = table_ab.size ∧ m1.capacity = 3 ∧ m1.buckets.length = 3 ∧
      m1.hash = table_ab.hash ∧ m1.equal = table_ab.equal :=
  ⟨table_ab_wf, by decide, rehash_relinks_every_node table_ab table_ab_wf 3 (by decide)⟩

/-- Claim C15, as stated: it fails.  After `hashmap_init(1, identity, int_eq)`
and the adds of `(0, "a")`, `(0, "b")` and `(3, "c")`, in that order, all
three pairs are stored and bucket 0 holds `(0, "a")` in front of `(0, "b")`,
because the rehash of the third add reversed the chain; `hashmap_get` of key 0
returns `(0, "a")`, while the most recently inserted pair of key 0 is
`(0, "b")`. -/
theorem get_returns_older_duplicate :
    Added 1 int_hash int_equal table_dup [⟨3, "c"⟩, ⟨0, "b"⟩, ⟨0, "a"⟩] ∧
    pairs table_dup = [⟨0, "a"⟩, ⟨0, "b"⟩, ⟨3, "c"⟩] ∧
    hashmap_get (some table_dup) 0 = .ok (some ⟨0, "a"⟩) ∧
    most_recent int_equal 0 [⟨3, "c"⟩, ⟨0, "b"⟩, ⟨0, "a"⟩] = some ⟨0, "b"⟩ ∧
    (⟨0, "a"⟩ : hashmap_pair_t Nat String) ≠ ⟨0, "b"⟩ :=
  ⟨table_dup_added, rfl, rfl, rfl, by decide⟩

/-- Claim C15, as amended: in a table reached from `hashmap_init` by calls of
`hashmap_add` (duplicate keys allowed, any number of rehashes, equality
consistent with the hash), `hashmap_get` of `k` returns the pair of the first
node, in chain order, of bucket `hash(k) % capacity` whose key equals `k`, and
null when there is none; when none of the calls grew the table (the capacity
is still the initial one) that pair is the most recently inserted pair among
the stored pairs whose key equals `k`. -/
theorem get_returns_most_recent_without_growth (c : Nat) (hash : K → Nat)
    (equal : K → K → Bool) (m : hashmap_t K V) (ps : List (hashmap_pair_t K V))
    (hadd : Added c hash equal m ps) (heq : EquivHash hash equal) (k : K) :
    hashmap_get (some m) k =
      .ok (((chain m (hash k % m.capacity)).find? (fun it => equal it.pair.key k)).map
        (fun it => it.pair)) ∧
    (m.capacity = c → hashmap_get (some m) k = .ok (most_recent equal k ps)) := by
  have hwf := (reachable_wf m (added_reachable c hash equal m ps hadd)).1
  obtain ⟨_, _, hh, he⟩ := added_inv c hash equal m ps hadd
  constructor
  · rw [hashmap_get_eq m hwf k, get_walk_eq_find, he, hh]
  · intro hcap
    rw [hashmap_get_eq m hwf k, added_chain_without_growth c hash equal m ps hadd hcap, he, hh,
      hcap]
    congr 1
    apply get_walk_filter_map equal k (fun p => decide (hash p.key % c = hash k % c))
    intro p hp
    simp only [decide_eq_true_eq]
    rw [heq.hash_eq p.key k hp]

theorem get_returns_most_recent_without_growth_witness :
    Added 2 int_hash int_equal table_dup_ab [⟨0, "b"⟩, ⟨0, "a"⟩] ∧
    EquivHash int_hash int_equal ∧ table_dup_ab.capacity = 2 ∧
    hashmap_get (some table_dup_ab) 0 = .ok (some ⟨0, "b"⟩) ∧
    most_recent int_equal 0 [(⟨0, "b"⟩ : hashmap_pair_t Nat String), ⟨0, "a"⟩] = some ⟨0, "b"⟩ :=
  ⟨table_dup_ab_added, int_equiv, rfl,
    (get_returns_most_recent_without_growth 2 int_hash int_equal table_dup_ab _
      table_dup_ab_added int_equiv 0).2 rfl, rfl⟩

/-- Claim C16, on the code: it fails for `hashmap_remove`.  The table reached
from `hashmap_init(1, identity, int_eq)` by adding `(1, "a")` and `(2, "b")`
has capacity 2, a bucket array of 2 slots and `size` 2, the number of its
nodes; its bucket `3 % 2 = 1` is empty, and `hashmap_remove` of key 3
dereferences the null pointer. -/
theorem remove_dereferences_null_on_empty_bucket :
    Reachable table_ab ∧ 1 ≤ table_ab.capacity ∧
    table_ab.buckets.length = table_ab.capacity ∧
    table_ab.size = ((nodes table_ab).length : Int) ∧
    chain table_ab (table_ab.hash 3 % table_ab.capacity) = [] ∧
    hashmap_remove (some table_ab) 3 = .error .nullDeref :=
  ⟨table_ab_reachable, by decide, rfl, rfl, rfl, rfl⟩

/-- Claim C17: in every table reachable from `hashmap_init` with a capacity of
at least 1 by calls of `hashmap_add` (successful or not) and
`hashmap_remove`, `4 * size < 3 * capacity + 4`: the load factor exceeds 0.75
by less than one entry. -/
theorem load_factor_bound (m : hashmap_t K V) (h : Reachable m) :
    4 * m.size < 3 * (m.capacity : Int) + 4 := by
  induction h with
  | init c hash equal m hc1 hc2 hi =>
    obtain ⟨h1, _, h3, _⟩ := hashmap_init_wf c hash equal m hc1 hc2 hi
    rw [h1.size_eq, h3]
    simp only [List.length_nil, Nat.cast_zero]
    omega
  | add m p growOk nodeOk b m1 hm ha ih =>
    exact load_bound_add m (reachable_wf m hm).1 p growOk nodeOk b m1 ha ih
  | remove m k r m1 hm hr ih =>
    obtain ⟨h1, h2, _⟩ := hashmap_remove_shape m (reachable_wf m hm).1 k r m1 hr
    rw [h1]
    rcases h2 with e | e <;> omega

theorem load_factor_bound_witness :
    Reachable table_abc ∧ 4 * table_abc.size < 3 * (table_abc.capacity : Int) + 4 :=
  ⟨table_abc_reachable, load_factor_bound table_abc table_abc_reachable⟩

/-- Claim C18: in every table reachable from `hashmap_init` (capacity at least
1) by calls of `hashmap_add` and `hashmap_remove`, the cached hash of every
node is below the current capacity; so `rehash` to `2 * capacity`, which is
the growth step of `hashmap_add` when the load factor is reached, returns
`true` and leaves in every bucket below the old capacity the chain it had,
reversed, and leaves every bucket from the old capacity on empty. -/
theorem cached_hash_below_capacity (m : hashmap_t K V) (h : Reachable m) :
    (∀ it ∈ nodes m, it.hash < m.capacity) ∧
    ∃ m1, rehash m (2 * m.capacity) true = .ok (true, m1) ∧
      m1.capacity = 2 * m.capacity ∧
      (3 * (m.capacity : Int) ≤ 4 * m.size → add_grow m true = .ok (true, m1)) ∧
      (∀ j, j < m.capacity → chain m1 j = (chain m j).reverse) ∧
      (∀ j, m.capacity ≤ j → chain m1 j = []) := by
  obtain ⟨hwf, hpl⟩ := reachable_wf m h
  have hlt := reachable_hash_lt m h
  have hcp := hwf.capacity_pos
  obtain ⟨bs, g1, _, g3, _⟩ := rehash_ok m (2 * m.capacity) (by omega) hwf.length_buckets
  have hidx : ∀ i it, it ∈ m.buckets.getD i [] → it.hash = 0 + i := by
    intro i it hit
    have h1 := hpl i it hit
    have h2 := hlt it (chain_sublist_nodes m i it hit)
    rw [Nat.mod_eq_of_lt h2] at h1
    omega
  have hfil : ∀ j, (nodes m).filter (fun it => it.hash % (2 * m.capacity) = j) = chain m j := by
    intro j
    have e1 : (nodes m).filter (fun it => it.hash % (2 * m.capacity) = j) =
        (nodes m).filter (fun it => it.hash = j) := by
      apply List.filter_congr
      intro it hit
      have := hlt it hit
      rw [Nat.mod_eq_of_lt (by omega)]
    rw [e1]
    have e2 := filter_flatten_index (fun it : hashmap_node_t K V => it.hash) m.buckets 0 j hidx
    rw [if_pos (Nat.zero_le _)] at e2
    exact e2
  have hch : ∀ j, chain { m with buckets := bs, capacity := 2 * m.capacity } j =
      (chain m j).reverse := by
    intro j
    show bs.getD j [] = _
    rw [g3 j, hfil j]
  refine ⟨hlt, _, g1, rfl, fun hr => (add_grow_of_reached m hwf true hr).1.trans g1,
    fun j _ => hch j, ?_⟩
  intro j hj
  rw [hch j]
  have : chain m j = [] := by
    simp only [chain, List.getD_eq_getElem?_getD]
    rw [List.getElem?_eq_none (by rw [hwf.length_buckets]; exact hj)]
    rfl
  rw [this]
  rfl

theorem cached_hash_below_capacity_witness :
    Reachable table_ab ∧
    (∀ it ∈ nodes table_ab, it.hash < table_ab.capacity) ∧
    ∃ m1, rehash table_ab (2 * table_ab.capacity) true = .ok (true, m1) ∧
      m1.capacity = 2 * table_ab.capacity ∧
      (3 * (table_ab.capacity : Int) ≤ 4 * table_ab.size →
        add_grow table_ab true = .ok (true, m1)) ∧
      (∀ j, j < table_ab.capacity → chain m1 j = (chain table_ab j).reverse) ∧
      (∀ j, table_ab.capacity ≤ j → chain m1 j = []) :=
  ⟨table_ab_reachable, cached_hash_below_capacity table_ab table_ab_reachable⟩

end Hashmap
